import Mathlib

/-!
# Radix sort of doubles (kavtorev_d_radix_double_sort, `ops_mpi.cpp`)

A shallow embedding of `RadixSortSequential` / `RadixSortParallel`.

* A `double` is represented by its 64-bit pattern, a natural number below `2^64`
  (the value `std::memcpy` moves between the `double` and the `uint64_t`).
* `uint64_t` keys are natural numbers below `2^64`.
* `int` quantities (`n`, `size`, `rank`, `group_size`, ...) are natural numbers; the
  source only ever holds non-negative values in them, and none exceeds
  `max n (2 * size)`, so 32-bit `int` does not wrap for `n < 2^31` and `size < 2^30`.
* An array is a list; `std::vector::swap` exchanges the two lists of a state pair.
* The merge loop of `RunImpl` is executed for all ranks at once, one step of the
  `for` loop per round; a `recv` obtains what the partner's `send` of the same
  round transmits and fails (`none`) when the partner transmits nothing.
-/

namespace RadixSort

/-! ## Key codec (the two loops of `radix_sort_doubles`) -/

/-- The constant `0x8000000000000000ULL`. -/
def SIGN : Nat := 0x8000000000000000

/-- Bitwise complement `~u` of a `uint64_t`. -/
def not64 (u : Nat) : Nat := 0xFFFFFFFFFFFFFFFF - u

/-- Body of the first loop of `radix_sort_doubles`: the key stored in `keys_[i]`
for the bit pattern `u` of `data_[i]`. -/
def encode (u : Nat) : Nat :=
  if (u &&& SIGN) ≠ 0 then not64 u else u ||| SIGN

/-- Body of the last loop of `radix_sort_doubles`: the bit pattern written back to
`data_[i]` for the key `u = keys_[i]`. -/
def decode (u : Nat) : Nat :=
  if (u &&& SIGN) ≠ 0 then u &&& not64 SIGN else not64 u

/-! ## IEEE-754 reading of a 64-bit pattern -/

/-- Sign bit (bit 63). -/
def signBit (u : Nat) : Nat := u / 2 ^ 63 % 2

/-- Biased exponent field (bits 52..62). -/
def expField (u : Nat) : Nat := u / 2 ^ 52 % 2 ^ 11

/-- Fraction field (bits 0..51). -/
def mantField (u : Nat) : Nat := u % 2 ^ 52

/-- NaN: exponent all ones and a non-zero fraction. -/
def isNaN (u : Nat) : Bool := expField u == 2047 && mantField u != 0

/-- Absolute value of the double, scaled by `2^1074` so that it is an integer:
subnormals are `m`, normals `(2^52 + m) * 2^(e-1)`.  For an infinity
(`e = 2047`, `m = 0`) the same formula gives `2^52 * 2^2046`, which exceeds the
scaled magnitude of every finite double, so comparing these numbers is the
comparison of the extended reals the patterns denote. -/
def magnitude (u : Nat) : Nat :=
  if expField u = 0 then mantField u else (2 ^ 52 + mantField u) * 2 ^ (expField u - 1)

/-- Numeric value of a non-NaN double, scaled by `2^1074`. -/
def doubleValue (u : Nat) : Int :=
  if signBit u = 1 then -(magnitude u : Int) else (magnitude u : Int)

/-- The comparison `x < y` of two doubles (false as soon as one is a NaN). -/
def dlt (x y : Nat) : Bool :=
  !isNaN x && !isNaN y && decide (doubleValue x < doubleValue y)

/-- The comparison `x <= y` of two doubles (false as soon as one is a NaN). -/
def dle (x y : Nat) : Bool :=
  !isNaN x && !isNaN y && decide (doubleValue x ≤ doubleValue y)

/-- Bit pattern of `+0.0`. -/
def posZero : Nat := 0

/-- Bit pattern of `-0.0`. -/
def negZero : Nat := 0x8000000000000000

/-! ## Byte-radix sorter (`radix_sort_uint64`) -/

/-- The constant `BITS`. -/
def BITS : Nat := 64

/-- The constant `RADIX`. -/
def RADIX : Nat := 256

/-- The value `uint8_t byte = (keys_[i] >> shift) & 0xFF`. -/
def byteAt (shift k : Nat) : Nat := (k >>> shift) &&& 0xFF

/-- First inner loop: `++count[byte + 1]` for every key. -/
def countLoop (shift : Nat) (keys count : List Nat) : List Nat :=
  keys.foldl
    (fun c k => c.set (byteAt shift k + 1) (c.getD (byteAt shift k + 1) 0 + 1)) count

/-- Second inner loop: `count[i + 1] += count[i]` for `i = 0 .. RADIX-1`. -/
def prefixLoop (count : List Nat) : List Nat :=
  (List.range RADIX).foldl (fun c i => c.set (i + 1) (c.getD (i + 1) 0 + c.getD i 0)) count

/-- One iteration of the third inner loop, `temp[count[byte]++] = keys_[i]`, on the
state `(count, temp)`. -/
def scatterStep (shift : Nat) (st : List Nat × List Nat) (k : Nat) : List Nat × List Nat :=
  (st.1.set (byteAt shift k) (st.1.getD (byteAt shift k) 0 + 1),
   st.2.set (st.1.getD (byteAt shift k) 0) k)

/-- Third inner loop over all keys; the state is `(count, temp)`. -/
def scatterLoop (shift : Nat) (keys count temp : List Nat) : List Nat × List Nat :=
  keys.foldl (scatterStep shift) (count, temp)

/-- One iteration of the `shift` loop on the state `(keys_, temp)`: histogram,
prefix sums, scatter, then `keys_.swap(temp)`. -/
def radixPass (shift : Nat) (st : List Nat × List Nat) : List Nat × List Nat :=
  ((scatterLoop shift st.1
      (prefixLoop (countLoop shift st.1 (List.replicate (RADIX + 1) 0))) st.2).2, st.1)

/-- The function `radix_sort_uint64`: `temp` starts as `keys_.size()` zeros, the loop
runs for `shift = 0, 8, ..., 56` (that is `BITS / 8` iterations); the result is the
final content of `keys_`. -/
def radix_sort_uint64 (keys : List Nat) : List Nat :=
  ((List.range (BITS / 8)).foldl (fun st i => radixPass (8 * i) st)
    (keys, List.replicate keys.length 0)).1

/-- The function `radix_sort_doubles` on the bit patterns of `data_`: encode every
element, sort the keys, decode every key. -/
def radix_sort_doubles (data : List Nat) : List Nat :=
  (radix_sort_uint64 (data.map encode)).map decode

/-- Keys of `keys` whose byte at `shift` is below `b`, bucket by bucket, each bucket
in input order (the stable counting sort the pass is compared with). -/
def bucketsUpTo (shift : Nat) (keys : List Nat) : Nat → List Nat
  | 0 => []
  | b + 1 => bucketsUpTo shift keys b ++ keys.filter (fun k => byteAt shift k == b)

/-- Number of keys whose byte at `shift` equals `b` (size of bucket `b`). -/
def bucketSize (shift : Nat) (keys : List Nat) (b : Nat) : Nat :=
  keys.countP (fun k => byteAt shift k == b)

/-- Number of keys whose byte at `shift` is below `b` (first slot of bucket `b`). -/
def bucketStart (shift : Nat) (keys : List Nat) (b : Nat) : Nat :=
  keys.countP (fun k => decide (byteAt shift k < b))

/-- State of the scatter loop of a pass over `keys` once the keys `pre` have been
written: every `count[b]` is the next free slot of bucket `b`, and the slots of
bucket `b` filled so far hold the keys of `pre` with byte `b`, in order. -/
def ScatterInv (shift : Nat) (keys pre count temp : List Nat) : Prop :=
  count.length = RADIX + 1 ∧ temp.length = keys.length ∧
  (∀ b, b < RADIX → count.getD b 0 = bucketStart shift keys b + bucketSize shift pre b) ∧
  (∀ b j, b < RADIX → j < bucketSize shift pre b →
    temp[bucketStart shift keys b + j]? = (pre.filter (fun k => byteAt shift k == b))[j]?)

/-! ## Partition plan, scatter and merge reduction (`RadixSortParallel::RunImpl`) -/

/-- The vector `counts` after the first loop on rank 0:
`counts[i] = local_n + (i < remainder ? 1 : 0)` with `local_n = n / size` and
`remainder = n % size`. -/
def counts (n size : Nat) : List Nat :=
  (List.range size).map (fun i => n / size + (if i < n % size then 1 else 0))

/-- The vector `displs` on rank 0: `displs[0] = 0`, then for `i = 1 .. size-1`
`displs[i] = displs[i - 1] + counts[i - 1]` (the loop index is `i = j + 1`). -/
def displs (size : Nat) (cnts : List Nat) : List Nat :=
  (List.range (size - 1)).foldl
    (fun d j => d.set (j + 1) (d.getD j 0 + cnts.getD j 0))
    ((List.replicate size 0).set 0 0)

/-- What `mpi::scatterv` puts into `local_data` of `rank`: `counts[rank]` elements of
`data_` starting at `displs[rank]`. -/
def scatterv (data cnts dsp : List Nat) (rank : Nat) : List Nat :=
  (data.drop (dsp.getD rank 0)).take (cnts.getD rank 0)

/-- The loop `while (tmp > 1) { tmp = (tmp + 1) / 2; steps++; }` on the state
`(tmp, steps)`; returns the final `steps`. -/
def stepsLoop (tmp steps : Nat) : Nat :=
  if h : tmp > 1 then stepsLoop ((tmp + 1) / 2) (steps + 1) else steps
termination_by tmp
decreasing_by omega

/-- The function `std::merge` on two ranges of doubles with the default comparison
`operator<`: while both ranges are non-empty the head of the second range is taken
when it is less than the head of the first, otherwise the head of the first; the rest
of the remaining range is copied. -/
def stdMerge : List Nat → List Nat → List Nat
  | [], l2 => l2
  | x :: xs, [] => x :: xs
  | x :: xs, y :: ys =>
    if dlt y x then y :: stdMerge (x :: xs) ys else x :: stdMerge xs (y :: ys)
termination_by l1 l2 => l1.length + l2.length

/-- The message a rank transmits in one step of the merge loop: in the send branch
(`!is_merger && rank % group_step_size == group_size`) the pair of `receiver` and the
content of `local_data`, otherwise nothing. -/
def sendOf (group_size rank : Nat) (local_data : List Nat) : Option (Nat × List Nat) :=
  if !(rank % (group_size * 2) == 0) && rank % (group_size * 2) == group_size then
    some (rank - group_size, local_data)
  else none

/-- One iteration of the merge loop on `rank`, given the buffers `bufs` of all ranks at
the start of the step; the result is the new `local_data`.  The two `recv` calls get
the size and the data that `partner_rank` sends to this rank in the same step, and do
not return (`none`) when `partner_rank` sends nothing to this rank. -/
def rankStep (size group_size : Nat) (bufs : List (List Nat)) (rank : Nat) :
    Option (List Nat) :=
  if rank % (group_size * 2) == 0 && decide (rank + group_size < size) then
    match sendOf group_size (rank + group_size) (bufs.getD (rank + group_size) []) with
    | some (receiver, partner_data) =>
      if receiver = rank then some (stdMerge (bufs.getD rank []) partner_data) else none
    | none => none
  else if !(rank % (group_size * 2) == 0) && rank % (group_size * 2) == group_size then
    some []
  else some (bufs.getD rank [])

/-- Gathers the results of all ranks; `none` as soon as one rank does not return. -/
def collect : List (Option (List Nat)) → Option (List (List Nat))
  | [] => some []
  | none :: _ => none
  | some b :: rest => (collect rest).map (fun bs => b :: bs)

/-- One step of the merge loop executed by all `size` ranks. -/
def mergeStep (size group_size : Nat) (bufs : List (List Nat)) : Option (List (List Nat)) :=
  collect ((List.range size).map (rankStep size group_size bufs))

/-- The merge loop: `steps` iterations, `group_size *= 2` after each. -/
def mergeLoop (size : Nat) : Nat → Nat → List (List Nat) → Option (List (List Nat))
  | 0, _, bufs => some bufs
  | steps + 1, group_size, bufs =>
    match mergeStep size group_size bufs with
    | some bufs' => mergeLoop size steps (group_size * 2) bufs'
    | none => none

/-- The `local_data` of every rank after `scatterv` and the local `radix_sort_doubles`. -/
def localSorted (size : Nat) (data : List Nat) : List (List Nat) :=
  (List.range size).map (fun rank =>
    radix_sort_doubles
      (scatterv data (counts data.length size) (displs size (counts data.length size)) rank))

/-- The function `RadixSortSequential::RunImpl`: the content of `data_` afterwards. -/
def RadixSortSequential.RunImpl (data : List Nat) : List Nat :=
  radix_sort_doubles data

/-- The function `RadixSortParallel::RunImpl` for `size` ranks and the input `data_` of
rank 0 (`n = data_.size()`): the content of `data_` on rank 0 afterwards, `none` when
some rank does not return from a `recv`. -/
def RadixSortParallel.RunImpl (size : Nat) (data : List Nat) : Option (List Nat) :=
  match mergeLoop size (stepsLoop size 0) 1 (localSorted size data) with
  | some bufs => some (bufs.getD 0 [])
  | none => none

/-- What a rank does in a step once every `recv` is matched by the partner's `send`:
a merger with a partner merges the partner's buffer into its own, a sender ends with
an empty buffer, every other rank keeps its buffer. -/
def settledStep (size group_size : Nat) (bufs : List (List Nat)) (rank : Nat) : List Nat :=
  if rank % (group_size * 2) = 0 then
    if rank + group_size < size then
      stdMerge (bufs.getD rank []) (bufs.getD (rank + group_size) [])
    else bufs.getD rank []
  else if rank % (group_size * 2) = group_size then []
  else bufs.getD rank []

/-- State of the merge loop at a step with group size `g`, for the locally sorted
chunks `chunks`: every rank that is a multiple of `g` holds, in ascending order, the
elements of the chunks of ranks `rank .. rank + g - 1` (as far as they exist). -/
def MergeInv (size : Nat) (chunks : List (List Nat)) (g : Nat) (bufs : List (List Nat)) :
    Prop :=
  bufs.length = size ∧
  ∀ r, r < size → r % g = 0 →
    (bufs.getD r []).Perm ((chunks.drop r).take g).flatten ∧
    (bufs.getD r []).Pairwise (fun u v => dle u v = true)

/-- The input of the worked example, `[3.5, -1.0, 0.0, -0.0, 2.25, -2.25]`, as bit
patterns. -/
def exampleInput : List Nat :=
  [0x400C000000000000, 0xBFF0000000000000, 0x0000000000000000,
   0x8000000000000000, 0x4002000000000000, 0xC002000000000000]

/-- The value of `group_size` at the start of iteration `step` of the merge loop:
`1` before the first iteration, doubled by `group_size *= 2` at the end of each. -/
def groupSizeAt : Nat → Nat
  | 0 => 1
  | step + 1 => groupSizeAt step * 2

/-! ## Validation (`ValidationImpl`) -/

/-- The part of `task_data` that `ValidationImpl` reads: the `int` stored in
`inputs[0]` and the vectors `inputs_count` and `outputs_count`. -/
structure TaskData where
  /-- The value `*(reinterpret_cast<int*>(task_data->inputs[0]))`. -/
  n_in : Int
  /-- The vector `task_data->inputs_count`. -/
  inputs_count : List Nat
  /-- The vector `task_data->outputs_count`. -/
  outputs_count : List Nat

/-- The conversion `static_cast<size_t>(n)` of an `int` (64-bit `size_t`). -/
def size_t_of_int (n : Int) : Nat := (n % 2 ^ 64).toNat

/-- The condition of the `if` in `ValidationImpl`,
`inputs_count[0] != 1 || inputs_count[1] != static_cast<size_t>(n) ||
outputs_count[0] != static_cast<size_t>(n)`, evaluated from left to right with the
short circuit of `||`.  The vectors are indexed with the unchecked `operator[]`: when
an operand that is evaluated indexes a vector at or beyond its size the read is out of
bounds and the condition has no value (`none`). -/
def countsMismatch (task_data : TaskData) : Option Bool :=
  match task_data.inputs_count[0]? with
  | none => none
  | some c0 =>
    if c0 ≠ 1 then some true
    else
      match task_data.inputs_count[1]? with
      | none => none
      | some c1 =>
        if c1 ≠ size_t_of_int task_data.n_in then some true
        else
          match task_data.outputs_count[0]? with
          | none => none
          | some o0 => some (decide (o0 ≠ size_t_of_int task_data.n_in))

/-- The function `RadixSortSequential::ValidationImpl`: `is_valid` starts as `true` and
is set to `false` when the condition holds; `none` when evaluating the condition reads
out of bounds. -/
def RadixSortSequential.ValidationImpl (task_data : TaskData) : Option Bool :=
  match countsMismatch task_data with
  | none => none
  | some mismatch => some (if mismatch then false else true)

/-- The value of `is_valid` on `rank` just before `mpi::broadcast(world, is_valid, 0)`
in `RadixSortParallel::ValidationImpl`: the check on rank 0 (`none` when it reads out
of bounds), `true` elsewhere. -/
def RadixSortParallel.isValidLocal (rank : Nat) (task_data : TaskData) : Option Bool :=
  if rank = 0 then
    match countsMismatch task_data with
    | none => none
    | some mismatch => some (if mismatch then false else true)
  else some true

/-- The collective `mpi::broadcast(world, value, root)`: afterwards every rank holds
the value that `root` held before. -/
def broadcast {α : Type} (values : Nat → α) (root : Nat) : Nat → α :=
  fun _ => values root

/-- The function `RadixSortParallel::ValidationImpl` on `rank`, where `task_data r` is
the task data of rank `r`: the value of `is_valid` after the broadcast from rank 0
(`none` when rank 0 has no value to send). -/
def RadixSortParallel.ValidationImpl (task_data : Nat → TaskData) (rank : Nat) :
    Option Bool :=
  broadcast (fun r => RadixSortParallel.isValidLocal r (task_data r)) 0 rank

/-- The rank from which `rank` receives in one step of the merge loop: `partner_rank`
in the receive branch (`is_merger && has_partner`), otherwise nothing. -/
def recvFrom (size group_size rank : Nat) : Option Nat :=
  if rank % (group_size * 2) == 0 && decide (rank + group_size < size) then
    some (rank + group_size)
  else none

/-- The indices at which the scatter loop writes into `temp`, in loop order: at each
key the current value of `count[byte]`, after which `count[byte]` is incremented (as in
`scatterStep`). -/
def scatterWrites (shift : Nat) : List Nat → List Nat → List Nat
  | [], _ => []
  | k :: ks, count =>
    count.getD (byteAt shift k) 0 ::
      scatterWrites shift ks (scatterStep shift (count, []) k).1

/-- The `local_data` of every rank right after `scatterv`, before the local sort. -/
def rawChunks (size : Nat) (data : List Nat) : List (List Nat) :=
  (List.range size).map
    (scatterv data (counts data.length size) (displs size (counts data.length size)))

/-- State of the merge loop at a step with group size `g`, for any input: a rank that
is a multiple of `g` holds the elements of the chunks of ranks `rank .. rank + g - 1`
(as far as they exist) with no element followed by a smaller one, and every other
rank holds nothing. -/
def TreeInv (size : Nat) (chunks : List (List Nat)) (g : Nat) (bufs : List (List Nat)) :
    Prop :=
  bufs.length = size ∧
  ∀ r, r < size →
    (r % g = 0 →
      (bufs.getD r []).Perm ((chunks.drop r).take g).flatten ∧
      (bufs.getD r []).Chain' (fun u v => dlt v u = false)) ∧
    (r % g ≠ 0 → bufs.getD r [] = [])

/-- An input with NaN, `[-NaN, 1.0, -NaN, 0.5]`, as bit patterns (`-NaN` is the quiet
NaN with the sign bit set). -/
def nanExampleInput : List Nat :=
  [0xFFF8000000000000, 0x3FF0000000000000, 0xFFF8000000000000, 0x3FE0000000000000]

/-! # Lemmas and theorems -/

/-! ## Codec lemmas -/

theorem and_SIGN_ne_zero_iff (u : Nat) (hu : u < 2 ^ 64) :
    (u &&& SIGN) ≠ 0 ↔ 2 ^ 63 ≤ u := by
  have h : SIGN = 2 ^ 63 := by norm_num [SIGN]
  rw [h, Nat.and_two_pow, Nat.testBit_to_div_mod]
  by_cases hb : u / 2 ^ 63 % 2 = 1
  · simp [hb]; omega
  · simp [hb]; omega

theorem or_SIGN (u : Nat) (hu : u < 2 ^ 63) : u ||| SIGN = u + 2 ^ 63 := by
  have h : SIGN = 2 ^ 63 * 1 := by norm_num [SIGN]
  rw [h, Nat.lor_comm, ← Nat.mul_add_lt_is_or hu 1]; omega

theorem and_not_SIGN (u : Nat) : u &&& not64 SIGN = u % 2 ^ 63 := by
  have h : not64 SIGN = 2 ^ 63 - 1 := by norm_num [not64, SIGN]
  rw [h, Nat.and_pow_two_sub_one_eq_mod]

theorem encode_eq (u : Nat) (hu : u < 2 ^ 64) :
    encode u = if 2 ^ 63 ≤ u then 2 ^ 64 - 1 - u else u + 2 ^ 63 := by
  unfold encode
  by_cases h : 2 ^ 63 ≤ u
  · rw [if_pos ((and_SIGN_ne_zero_iff u hu).2 h), if_pos h]; simp [not64]
  · rw [if_neg (fun hc => h ((and_SIGN_ne_zero_iff u hu).1 hc)), if_neg h]
    exact or_SIGN u (by omega)

theorem decode_eq (u : Nat) (hu : u < 2 ^ 64) :
    decode u = if 2 ^ 63 ≤ u then u - 2 ^ 63 else 2 ^ 64 - 1 - u := by
  unfold decode
  by_cases h : 2 ^ 63 ≤ u
  · rw [if_pos ((and_SIGN_ne_zero_iff u hu).2 h), if_pos h, and_not_SIGN]; omega
  · rw [if_neg (fun hc => h ((and_SIGN_ne_zero_iff u hu).1 hc)), if_neg h]; simp [not64]

theorem encode_lt (u : Nat) (hu : u < 2 ^ 64) : encode u < 2 ^ 64 := by
  rw [encode_eq u hu]; split <;> omega

theorem decode_lt (u : Nat) (hu : u < 2 ^ 64) : decode u < 2 ^ 64 := by
  rw [decode_eq u hu]; split <;> omega

theorem decode_encode (u : Nat) (hu : u < 2 ^ 64) : decode (encode u) = u := by
  rw [decode_eq _ (encode_lt u hu), encode_eq u hu]
  split_ifs <;> omega

theorem encode_decode (u : Nat) (hu : u < 2 ^ 64) : encode (decode u) = u := by
  rw [encode_eq _ (decode_lt u hu), decode_eq u hu]
  split_ifs <;> omega

/-! ## Order lemmas for the codec -/

theorem fields_of_mod (a : Nat) :
    a % 2 ^ 63 = expField a * 2 ^ 52 + mantField a ∧ mantField a < 2 ^ 52 ∧
      expField a < 2 ^ 11 := by
  unfold expField mantField
  omega

theorem magnitude_lt_of_exp_lt (a b : Nat) (h : expField a < expField b) :
    magnitude a < magnitude b := by
  obtain ⟨-, hma, -⟩ := fields_of_mod a
  have hb : magnitude b = (2 ^ 52 + mantField b) * 2 ^ (expField b - 1) := by
    unfold magnitude; rw [if_neg (by omega)]
  have hpow : 2 ^ expField a ≤ 2 ^ (expField b - 1) :=
    Nat.pow_le_pow_right (by norm_num) (by omega)
  have hlow : 2 ^ 52 * 2 ^ (expField b - 1) ≤ magnitude b := by
    rw [hb]; exact Nat.mul_le_mul_right _ (by omega)
  have hone : 1 ≤ 2 ^ expField a := Nat.one_le_two_pow
  by_cases h0 : expField a = 0
  · have ha : magnitude a = mantField a := by unfold magnitude; rw [if_pos h0]
    rw [ha]
    have : 2 ^ 52 * 1 ≤ 2 ^ 52 * 2 ^ (expField b - 1) :=
      Nat.mul_le_mul_left _ (le_trans hone hpow)
    omega
  · have ha : magnitude a = (2 ^ 52 + mantField a) * 2 ^ (expField a - 1) := by
      unfold magnitude; rw [if_neg h0]
    have hsplit : 2 ^ expField a = 2 * 2 ^ (expField a - 1) := by
      rw [← pow_succ']; congr 1; omega
    have hpos : 0 < 2 ^ (expField a - 1) := Nat.two_pow_pos _
    have h1 : magnitude a < (2 ^ 52 + 2 ^ 52) * 2 ^ (expField a - 1) := by
      rw [ha]; exact Nat.mul_lt_mul_of_pos_right (by omega) hpos
    have h2 : (2 ^ 52 + 2 ^ 52) * 2 ^ (expField a - 1) = 2 ^ 52 * 2 ^ expField a := by
      rw [hsplit]; ring
    have h3 : 2 ^ 52 * 2 ^ expField a ≤ 2 ^ 52 * 2 ^ (expField b - 1) :=
      Nat.mul_le_mul_left _ hpow
    omega

theorem magnitude_lt_of_mod_lt (a b : Nat) (h : a % 2 ^ 63 < b % 2 ^ 63) :
    magnitude a < magnitude b := by
  obtain ⟨ha, hma, -⟩ := fields_of_mod a
  obtain ⟨hb, hmb, -⟩ := fields_of_mod b
  rcases Nat.lt_trichotomy (expField a) (expField b) with hlt | heq | hgt
  · exact magnitude_lt_of_exp_lt a b hlt
  · have hm : mantField a < mantField b := by omega
    unfold magnitude
    rw [heq]
    split
    · exact hm
    · exact Nat.mul_lt_mul_of_pos_right (by omega) (Nat.two_pow_pos _)
  · exfalso
    have : (expField b + 1) * 2 ^ 52 ≤ expField a * 2 ^ 52 := Nat.mul_le_mul_right _ hgt
    omega

theorem magnitude_le_of_mod_le (a b : Nat) (h : a % 2 ^ 63 ≤ b % 2 ^ 63) :
    magnitude a ≤ magnitude b := by
  rcases Nat.lt_or_ge (a % 2 ^ 63) (b % 2 ^ 63) with hlt | hge
  · exact le_of_lt (magnitude_lt_of_mod_lt a b hlt)
  · have heq : a % 2 ^ 63 = b % 2 ^ 63 := le_antisymm h hge
    have he : expField a = expField b := by unfold expField; omega
    have hm : mantField a = mantField b := by unfold mantField; omega
    unfold magnitude; rw [he, hm]

theorem signBit_eq (u : Nat) (hu : u < 2 ^ 64) :
    signBit u = if 2 ^ 63 ≤ u then 1 else 0 := by
  unfold signBit; split <;> omega

theorem doubleValue_le_of_encode_le (x y : Nat) (hx : x < 2 ^ 64) (hy : y < 2 ^ 64)
    (h : encode x ≤ encode y) : doubleValue x ≤ doubleValue y := by
  rw [encode_eq x hx, encode_eq y hy] at h
  unfold doubleValue
  rw [signBit_eq x hx, signBit_eq y hy]
  by_cases sx : 2 ^ 63 ≤ x <;> by_cases sy : 2 ^ 63 ≤ y
  · rw [if_pos sx, if_pos sy] at h
    have := magnitude_le_of_mod_le y x (by omega)
    rw [if_pos sx, if_pos sy, if_pos rfl, if_pos rfl]; omega
  · rw [if_pos sx, if_neg sy, if_pos rfl, if_neg (by decide)]
    have h1 : (0 : Int) ≤ magnitude x := Int.natCast_nonneg _
    have h2 : (0 : Int) ≤ magnitude y := Int.natCast_nonneg _
    omega
  · rw [if_neg sx, if_pos sy] at h; omega
  · rw [if_neg sx, if_neg sy] at h
    have := magnitude_le_of_mod_le x y (by omega)
    rw [if_neg sx, if_neg sy, if_neg (by decide), if_neg (by decide)]; omega

theorem encode_lt_of_doubleValue_lt (x y : Nat) (hx : x < 2 ^ 64) (hy : y < 2 ^ 64)
    (h : doubleValue x < doubleValue y) : encode x < encode y := by
  by_contra hc
  have := doubleValue_le_of_encode_le y x hy hx (by omega)
  omega

theorem encode_sign_split (x y : Nat) (hx : x < 2 ^ 64) (hy : y < 2 ^ 64)
    (sx : signBit x = 1) (sy : signBit y = 0) : encode x < encode y := by
  rw [signBit_eq x hx] at sx
  rw [signBit_eq y hy] at sy
  rw [encode_eq x hx, encode_eq y hy]
  split_ifs at sx sy ⊢
  omega


/-! ## One counting-sort pass -/

theorem getD_set_eq (l : List Nat) (i j v : Nat) :
    (l.set i v).getD j 0 = if i = j ∧ i < l.length then v else l.getD j 0 := by
  simp only [List.getD_eq_getElem?_getD, List.getElem?_set]
  by_cases h : i = j
  · subst h
    by_cases h2 : i < l.length
    · simp [h2]
    · simp [h2, List.getElem?_eq_none (Nat.le_of_not_lt h2)]
  · simp [h]

theorem byteAt_eq (shift k : Nat) : byteAt shift k = k / 2 ^ shift % 256 := by
  unfold byteAt
  rw [Nat.shiftRight_eq_div_pow]
  exact Nat.and_pow_two_sub_one_eq_mod _ 8

theorem byteAt_lt (shift k : Nat) : byteAt shift k < RADIX := by
  rw [byteAt_eq]; unfold RADIX; omega

theorem bucketStart_succ (shift : Nat) (keys : List Nat) (b : Nat) :
    bucketStart shift keys (b + 1) = bucketStart shift keys b + bucketSize shift keys b := by
  unfold bucketStart bucketSize
  induction keys with
  | nil => simp
  | cons k ks ih =>
    simp only [List.countP_cons, ih]
    by_cases h1 : byteAt shift k < b
    · have h2 : byteAt shift k < b + 1 := by omega
      have h3 : ¬ byteAt shift k = b := by omega
      simp [h1, h2, h3]; omega
    · by_cases h3 : byteAt shift k = b
      · have h2 : byteAt shift k < b + 1 := by omega
        simp [h1, h2, h3]; omega
      · have h2 : ¬ byteAt shift k < b + 1 := by omega
        simp [h1, h2, h3]

theorem bucketStart_zero (shift : Nat) (keys : List Nat) : bucketStart shift keys 0 = 0 := by
  unfold bucketStart; simp

theorem bucketStart_mono (shift : Nat) (keys : List Nat) (a b : Nat) (h : a ≤ b) :
    bucketStart shift keys a ≤ bucketStart shift keys b := by
  induction b with
  | zero => have : a = 0 := by omega
            subst this; exact le_refl _
  | succ b ih =>
    rcases Nat.lt_or_ge a (b + 1) with hlt | hge
    · have := ih (by omega)
      rw [bucketStart_succ]; omega
    · have : a = b + 1 := by omega
      subst this; exact le_refl _

theorem bucketStart_RADIX (shift : Nat) (keys : List Nat) :
    bucketStart shift keys RADIX = keys.length := by
  unfold bucketStart
  rw [List.countP_eq_length]
  intro k _
  simpa using byteAt_lt shift k

theorem bucketSize_append (shift : Nat) (l₁ l₂ : List Nat) (b : Nat) :
    bucketSize shift (l₁ ++ l₂) b = bucketSize shift l₁ b + bucketSize shift l₂ b := by
  unfold bucketSize; exact List.countP_append _ _ _

theorem bucketSize_eq_length (shift : Nat) (l : List Nat) (b : Nat) :
    bucketSize shift l b = (l.filter (fun k => byteAt shift k == b)).length := by
  unfold bucketSize; exact List.countP_eq_length_filter _ _

theorem countLoop_spec (shift : Nat) (keys : List Nat) :
    ∀ c : List Nat, c.length = RADIX + 1 →
      (countLoop shift keys c).length = RADIX + 1 ∧
      ∀ j, (countLoop shift keys c).getD j 0 =
        c.getD j 0 + keys.countP (fun k => byteAt shift k + 1 == j) := by
  induction keys with
  | nil => intro c hc; exact ⟨hc, fun j => by simp [countLoop]⟩
  | cons k ks ih =>
    intro c hc
    have hb := byteAt_lt shift k
    obtain ⟨hlen, hget⟩ := ih (c.set (byteAt shift k + 1) (c.getD (byteAt shift k + 1) 0 + 1))
      (by rw [List.length_set]; exact hc)
    refine ⟨by simpa [countLoop] using hlen, fun j => ?_⟩
    have := hget j
    simp only [countLoop, List.foldl_cons] at this ⊢
    rw [this, getD_set_eq, List.countP_cons]
    by_cases hj : byteAt shift k + 1 = j
    · subst hj
      have : byteAt shift k + 1 < c.length := by rw [hc]; omega
      simp [this]; omega
    · simp [hj]

theorem prefixLoop_spec (shift : Nat) (keys c : List Nat) (hc : c.length = RADIX + 1)
    (h0 : c.getD 0 0 = 0) (hs : ∀ b, c.getD (b + 1) 0 = bucketSize shift keys b) :
    ∀ m, m ≤ RADIX →
      ((List.range m).foldl (fun c i => c.set (i + 1) (c.getD (i + 1) 0 + c.getD i 0)) c).length
        = RADIX + 1 ∧
      ∀ j, ((List.range m).foldl
          (fun c i => c.set (i + 1) (c.getD (i + 1) 0 + c.getD i 0)) c).getD j 0 =
        if j ≤ m then bucketStart shift keys j else c.getD j 0 := by
  intro m
  induction m with
  | zero =>
    intro _
    refine ⟨by simpa using hc, fun j => ?_⟩
    simp only [List.range_zero, List.foldl_nil]
    by_cases hj : j = 0
    · subst hj; rw [if_pos (le_refl 0), h0, bucketStart_zero]
    · rw [if_neg (by omega)]
  | succ m ih =>
    intro hm
    obtain ⟨hlen, hget⟩ := ih (by omega)
    rw [List.range_succ, List.foldl_append]
    simp only [List.foldl_cons, List.foldl_nil]
    refine ⟨by rw [List.length_set]; exact hlen, fun j => ?_⟩
    rw [getD_set_eq, hget (m + 1), hget m, hget j, hlen]
    have e1 : ¬ m + 1 ≤ m := by omega
    rw [if_neg e1, if_pos (le_refl m), hs m]
    by_cases hj : m + 1 = j
    · subst hj
      rw [if_pos ⟨rfl, by omega⟩, if_pos (le_refl _), bucketStart_succ]; omega
    · rw [if_neg (fun h => hj h.1)]
      by_cases hjm : j ≤ m
      · rw [if_pos hjm, if_pos (by omega)]
      · rw [if_neg hjm, if_neg (by omega)]

theorem prefix_count_spec (shift : Nat) (keys : List Nat) :
    (prefixLoop (countLoop shift keys (List.replicate (RADIX + 1) 0))).length = RADIX + 1 ∧
    ∀ j, j ≤ RADIX →
      (prefixLoop (countLoop shift keys (List.replicate (RADIX + 1) 0))).getD j 0 =
        bucketStart shift keys j := by
  obtain ⟨hlen, hget⟩ := countLoop_spec shift keys (List.replicate (RADIX + 1) 0) (by simp)
  have hz : ∀ j, (List.replicate (RADIX + 1) 0).getD j 0 = 0 := by
    intro j
    rw [List.getD_eq_getElem?_getD, List.getElem?_replicate]
    split <;> rfl
  have h0 : (countLoop shift keys (List.replicate (RADIX + 1) 0)).getD 0 0 = 0 := by
    rw [hget 0, hz]; simp
  have hs : ∀ b, (countLoop shift keys (List.replicate (RADIX + 1) 0)).getD (b + 1) 0 =
      bucketSize shift keys b := by
    intro b
    rw [hget (b + 1), hz]; simp [bucketSize]
  obtain ⟨hl, hg⟩ := prefixLoop_spec shift keys _ hlen h0 hs RADIX (le_refl _)
  refine ⟨hl, fun j hj => ?_⟩
  have := hg j
  rw [if_pos hj] at this
  exact this

theorem bucket_slot_lt (shift : Nat) (keys : List Nat) (b j : Nat)
    (hj : j < bucketSize shift keys b) :
    bucketStart shift keys b + j < bucketStart shift keys (b + 1) := by
  rw [bucketStart_succ]; omega

theorem bucket_slot_ne (shift : Nat) (keys : List Nat) (b b' j j' : Nat) (hb : b ≠ b')
    (hj : j < bucketSize shift keys b) (hj' : j' < bucketSize shift keys b') :
    bucketStart shift keys b + j ≠ bucketStart shift keys b' + j' := by
  have h1 := bucket_slot_lt shift keys b j hj
  have h2 := bucket_slot_lt shift keys b' j' hj'
  rcases Nat.lt_or_ge b b' with hlt | hge
  · have := bucketStart_mono shift keys (b + 1) b' (by omega)
    omega
  · have := bucketStart_mono shift keys (b' + 1) b (by omega)
    omega

theorem scatterInv_step (shift : Nat) (keys pre suf count temp : List Nat) (k : Nat)
    (hk : pre ++ k :: suf = keys) (inv : ScatterInv shift keys pre count temp) :
    ScatterInv shift keys (pre ++ [k]) (scatterStep shift (count, temp) k).1
      (scatterStep shift (count, temp) k).2 := by
  obtain ⟨hcl, htl, hcount, htemp⟩ := inv
  have hb := byteAt_lt shift k
  have hsz : ∀ b, bucketSize shift keys b =
      bucketSize shift pre b + (bucketSize shift [k] b + bucketSize shift suf b) := by
    intro b
    rw [← hk, bucketSize_append]
    congr 1
    exact bucketSize_append shift [k] suf b
  have hone : ∀ b, bucketSize shift [k] b = if byteAt shift k = b then 1 else 0 := by
    intro b; unfold bucketSize; simp [List.countP_cons]
  have hw : count.getD (byteAt shift k) 0 =
      bucketStart shift keys (byteAt shift k) + bucketSize shift pre (byteAt shift k) :=
    hcount _ hb
  have hwlt : bucketSize shift pre (byteAt shift k) < bucketSize shift keys (byteAt shift k) := by
    rw [hsz, hone, if_pos rfl]; omega
  have hwn : count.getD (byteAt shift k) 0 < temp.length := by
    rw [hw, htl, ← bucketStart_RADIX shift keys]
    have h1 := bucket_slot_lt shift keys _ _ hwlt
    have h2 := bucketStart_mono shift keys (byteAt shift k + 1) RADIX (by omega)
    omega
  refine ⟨?_, ?_, ?_, ?_⟩
  · simp only [scatterStep, List.length_set]; exact hcl
  · simp only [scatterStep, List.length_set]; exact htl
  · intro b hbR
    simp only [scatterStep]
    rw [getD_set_eq, bucketSize_append, hone]
    by_cases hbb : byteAt shift k = b
    · subst hbb
      rw [if_pos ⟨rfl, by rw [hcl]; omega⟩, if_pos rfl, hw]; omega
    · rw [if_neg (fun h => hbb h.1), if_neg hbb, hcount b hbR]; omega
  · intro b j hbR hj
    simp only [scatterStep]
    rw [bucketSize_append, hone] at hj
    rw [List.getElem?_set, List.filter_append]
    by_cases hbb : byteAt shift k = b
    · subst hbb
      rw [if_pos rfl] at hj
      have hf : List.filter (fun k' => byteAt shift k' == byteAt shift k) [k] = [k] := by
        simp
      rw [hf]
      by_cases hjj : j = bucketSize shift pre (byteAt shift k)
      · subst hjj
        rw [if_pos hw, if_pos hwn, List.getElem?_append_right
          (by rw [← bucketSize_eq_length]), ← bucketSize_eq_length]
        simp
      · have hjlt : j < bucketSize shift pre (byteAt shift k) := by omega
        rw [if_neg (by rw [hw]; omega), htemp _ j hbR hjlt,
          List.getElem?_append_left (by rw [← bucketSize_eq_length]; exact hjlt)]
    · rw [if_neg hbb] at hj
      have hf : List.filter (fun k' => byteAt shift k' == b) [k] = [] := by
        simp [hbb]
      rw [hf, List.append_nil]
      have hjk : j < bucketSize shift keys b := by rw [hsz]; omega
      have hne := bucket_slot_ne shift keys (byteAt shift k) b _ j hbb hwlt hjk
      rw [if_neg (by rw [hw]; exact hne), htemp b j hbR (by omega)]

theorem scatterLoop_inv (shift : Nat) (keys : List Nat) :
    ∀ (suf pre count temp : List Nat), pre ++ suf = keys →
      ScatterInv shift keys pre count temp →
      ScatterInv shift keys keys (suf.foldl (scatterStep shift) (count, temp)).1
        (suf.foldl (scatterStep shift) (count, temp)).2 := by
  intro suf
  induction suf with
  | nil =>
    intro pre count temp hk inv
    rw [List.append_nil] at hk
    subst hk
    exact inv
  | cons k suf ih =>
    intro pre count temp hk inv
    rw [List.foldl_cons]
    exact ih (pre ++ [k]) _ _ (by rw [List.append_assoc]; exact hk)
      (scatterInv_step shift keys pre suf count temp k hk inv)

theorem length_bucketsUpTo (shift : Nat) (keys : List Nat) (B : Nat) :
    (bucketsUpTo shift keys B).length = bucketStart shift keys B := by
  induction B with
  | zero => simp [bucketsUpTo, bucketStart_zero]
  | succ B ih =>
    rw [bucketsUpTo, List.length_append, ih, bucketStart_succ, bucketSize_eq_length]

theorem getElem?_bucketsUpTo (shift : Nat) (keys : List Nat) (B b j : Nat) (hb : b < B)
    (hj : j < bucketSize shift keys b) :
    (bucketsUpTo shift keys B)[bucketStart shift keys b + j]? =
      (keys.filter (fun k => byteAt shift k == b))[j]? := by
  induction B with
  | zero => omega
  | succ B ih =>
    rw [bucketsUpTo]
    rcases Nat.lt_or_ge b B with hlt | hge
    · rw [List.getElem?_append_left, ih hlt]
      rw [length_bucketsUpTo]
      have := bucket_slot_lt shift keys b j hj
      have := bucketStart_mono shift keys (b + 1) B (by omega)
      omega
    · have hbB : b = B := by omega
      subst hbB
      rw [List.getElem?_append_right (by rw [length_bucketsUpTo]; omega), length_bucketsUpTo]
      congr 1
      omega

theorem slot_decompose (shift : Nat) (keys : List Nat) (B i : Nat)
    (hi : i < bucketStart shift keys B) :
    ∃ b j, b < B ∧ j < bucketSize shift keys b ∧ i = bucketStart shift keys b + j := by
  induction B with
  | zero => rw [bucketStart_zero] at hi; omega
  | succ B ih =>
    rcases Nat.lt_or_ge i (bucketStart shift keys B) with hlt | hge
    · obtain ⟨b, j, hb, hj, rfl⟩ := ih hlt
      exact ⟨b, j, by omega, hj, rfl⟩
    · rw [bucketStart_succ] at hi
      exact ⟨B, i - bucketStart shift keys B, by omega, by omega, by omega⟩

theorem scatterInv_final (shift : Nat) (keys count temp : List Nat)
    (inv : ScatterInv shift keys keys count temp) : temp = bucketsUpTo shift keys RADIX := by
  obtain ⟨-, htl, -, htemp⟩ := inv
  apply List.ext_getElem?
  intro i
  rcases Nat.lt_or_ge i keys.length with hlt | hge
  · obtain ⟨b, j, hb, hj, rfl⟩ :=
      slot_decompose shift keys RADIX i (by rw [bucketStart_RADIX]; exact hlt)
    rw [htemp b j hb hj, getElem?_bucketsUpTo shift keys RADIX b j hb hj]
  · rw [List.getElem?_eq_none (by rw [htl]; exact hge),
      List.getElem?_eq_none (by rw [length_bucketsUpTo, bucketStart_RADIX]; exact hge)]

/-- A pass writes into `temp` the stable counting sort of `keys_` by the byte at
`shift`, whatever `temp` held before (it only needs the size of `keys_`). -/
theorem radixPass_eq (shift : Nat) (keys temp : List Nat) (ht : temp.length = keys.length) :
    radixPass shift (keys, temp) = (bucketsUpTo shift keys RADIX, keys) := by
  obtain ⟨hl, hg⟩ := prefix_count_spec shift keys
  have inv0 : ScatterInv shift keys []
      (prefixLoop (countLoop shift keys (List.replicate (RADIX + 1) 0))) temp := by
    refine ⟨hl, ht, fun b hb => ?_, fun b j _ hj => ?_⟩
    · rw [hg b (by omega)]; simp [bucketSize]
    · simp [bucketSize] at hj
  have := scatterInv_final shift keys _ _ (scatterLoop_inv shift keys keys [] _ _ rfl inv0)
  unfold radixPass scatterLoop
  simp only []
  rw [this]

/-! ## The eight passes together -/

theorem mem_bucketsUpTo (shift : Nat) (keys : List Nat) (B x : Nat) :
    x ∈ bucketsUpTo shift keys B ↔ x ∈ keys ∧ byteAt shift x < B := by
  induction B with
  | zero => simp [bucketsUpTo]
  | succ B ih =>
    rw [bucketsUpTo, List.mem_append, ih, List.mem_filter, beq_iff_eq]
    constructor
    · rintro (⟨h1, h2⟩ | ⟨h1, h2⟩)
      · exact ⟨h1, by omega⟩
      · exact ⟨h1, by omega⟩
    · rintro ⟨h1, h2⟩
      rcases Nat.lt_or_ge (byteAt shift x) B with hlt | hge
      · exact Or.inl ⟨h1, hlt⟩
      · exact Or.inr ⟨h1, by omega⟩

theorem count_bucketsUpTo (shift : Nat) (keys : List Nat) (B a : Nat) :
    (bucketsUpTo shift keys B).count a = if byteAt shift a < B then keys.count a else 0 := by
  induction B with
  | zero => simp [bucketsUpTo]
  | succ B ih =>
    rw [bucketsUpTo, List.count_append, ih]
    by_cases h : byteAt shift a = B
    · rw [List.count_filter (by simpa using h), if_neg (by omega), if_pos (by omega)]
      omega
    · have hz : List.count a (List.filter (fun k => byteAt shift k == B) keys) = 0 := by
        rw [List.count_eq_zero]
        intro hm
        rw [List.mem_filter, beq_iff_eq] at hm
        exact h hm.2
      rw [hz]
      by_cases h2 : byteAt shift a < B
      · rw [if_pos h2, if_pos (by omega)]; rfl
      · rw [if_neg h2, if_neg (by omega)]

theorem bucketsUpTo_perm (shift : Nat) (keys : List Nat) :
    (bucketsUpTo shift keys RADIX).Perm keys := by
  rw [List.perm_iff_count]
  intro a
  rw [count_bucketsUpTo, if_pos (byteAt_lt shift a)]

theorem low_split (s k : Nat) : k % 2 ^ (s + 8) = k % 2 ^ s + 2 ^ s * byteAt s k := by
  rw [byteAt_eq, pow_add, Nat.mod_mul]
  norm_num

theorem low_le_of_byte_lt (s a b : Nat) (h : byteAt s a < byteAt s b) :
    a % 2 ^ (s + 8) ≤ b % 2 ^ (s + 8) := by
  rw [low_split, low_split]
  have h1 : a % 2 ^ s < 2 ^ s := Nat.mod_lt _ (Nat.two_pow_pos s)
  have h2 : 2 ^ s * (byteAt s a + 1) ≤ 2 ^ s * byteAt s b := Nat.mul_le_mul_left _ h
  rw [Nat.mul_add, Nat.mul_one] at h2
  omega

theorem low_le_of_byte_eq (s a b : Nat) (h : byteAt s a = byteAt s b)
    (hl : a % 2 ^ s ≤ b % 2 ^ s) : a % 2 ^ (s + 8) ≤ b % 2 ^ (s + 8) := by
  rw [low_split, low_split, h]
  omega

theorem bucketsUpTo_pairwise (s : Nat) (keys : List Nat)
    (h : keys.Pairwise (fun a b => a % 2 ^ s ≤ b % 2 ^ s)) (B : Nat) :
    (bucketsUpTo s keys B).Pairwise (fun a b => a % 2 ^ (s + 8) ≤ b % 2 ^ (s + 8)) := by
  induction B with
  | zero => simp [bucketsUpTo]
  | succ B ih =>
    rw [bucketsUpTo, List.pairwise_append]
    refine ⟨ih, ?_, ?_⟩
    · refine List.Pairwise.imp_of_mem ?_ (List.Pairwise.filter _ h)
      intro a b ha hb hab
      rw [List.mem_filter, beq_iff_eq] at ha hb
      exact low_le_of_byte_eq s a b (by rw [ha.2, hb.2]) hab
    · intro a ha b hb
      rw [mem_bucketsUpTo] at ha
      rw [List.mem_filter, beq_iff_eq] at hb
      exact low_le_of_byte_lt s a b (by omega)

theorem passes_spec (keys : List Nat) (m : Nat) :
    (((List.range m).foldl (fun st i => radixPass (8 * i) st)
        (keys, List.replicate keys.length 0)).1).Perm keys ∧
    (((List.range m).foldl (fun st i => radixPass (8 * i) st)
        (keys, List.replicate keys.length 0)).2).length = keys.length ∧
    (((List.range m).foldl (fun st i => radixPass (8 * i) st)
        (keys, List.replicate keys.length 0)).1).Pairwise
      (fun a b => a % 2 ^ (8 * m) ≤ b % 2 ^ (8 * m)) := by
  induction m with
  | zero =>
    refine ⟨List.Perm.refl _, by simp, ?_⟩
    simp only [List.range_zero, List.foldl_nil, Nat.mul_zero, pow_zero, Nat.mod_one]
    exact List.pairwise_of_forall (fun _ _ => le_refl 0)
  | succ m ih =>
    obtain ⟨hp, hl, hs⟩ := ih
    rw [List.range_succ, List.foldl_append]
    simp only [List.foldl_cons, List.foldl_nil]
    generalize (List.range m).foldl (fun st i => radixPass (8 * i) st)
      (keys, List.replicate keys.length 0) = st at hp hl hs
    obtain ⟨ks, tmp⟩ := st
    simp only at hp hl hs
    rw [radixPass_eq (8 * m) ks tmp (by rw [hl, hp.length_eq])]
    refine ⟨(bucketsUpTo_perm _ ks).trans hp, hp.length_eq, ?_⟩
    have := bucketsUpTo_pairwise (8 * m) ks hs RADIX
    simpa [Nat.mul_succ] using this

theorem radix_sort_uint64_perm (keys : List Nat) : (radix_sort_uint64 keys).Perm keys :=
  (passes_spec keys (BITS / 8)).1

theorem radix_sort_uint64_sorted (keys : List Nat) (h : ∀ k ∈ keys, k < 2 ^ 64) :
    (radix_sort_uint64 keys).Pairwise (fun a b => a ≤ b) := by
  have hs := (passes_spec keys (BITS / 8)).2.2
  refine List.Pairwise.imp_of_mem ?_ hs
  intro a b ha hb hab
  have ha' := h a ((radix_sort_uint64_perm keys).mem_iff.1 ha)
  have hb' := h b ((radix_sort_uint64_perm keys).mem_iff.1 hb)
  have e : 8 * (BITS / 8) = 64 := by decide
  rw [e, Nat.mod_eq_of_lt ha', Nat.mod_eq_of_lt hb'] at hab
  exact hab

/-! ## `radix_sort_doubles` -/

theorem radix_sort_doubles_keys (data : List Nat) (h : ∀ x ∈ data, x < 2 ^ 64) :
    (radix_sort_doubles data).map encode = radix_sort_uint64 (data.map encode) := by
  unfold radix_sort_doubles
  rw [List.map_map]
  have hk : ∀ k ∈ radix_sort_uint64 (data.map encode), k < 2 ^ 64 := by
    intro k hk
    rw [(radix_sort_uint64_perm _).mem_iff, List.mem_map] at hk
    obtain ⟨x, hx, rfl⟩ := hk
    exact encode_lt x (h x hx)
  calc List.map (encode ∘ decode) (radix_sort_uint64 (data.map encode))
      = List.map id (radix_sort_uint64 (data.map encode)) :=
        List.map_congr_left (fun k hk' => encode_decode k (hk k hk'))
    _ = radix_sort_uint64 (data.map encode) := List.map_id _

theorem radix_sort_doubles_perm (data : List Nat) (h : ∀ x ∈ data, x < 2 ^ 64) :
    (radix_sort_doubles data).Perm data := by
  unfold radix_sort_doubles
  have h1 : (List.map decode (radix_sort_uint64 (data.map encode))).Perm
      (List.map decode (data.map encode)) := (radix_sort_uint64_perm _).map decode
  have h2 : List.map decode (data.map encode) = data := by
    rw [List.map_map]
    calc List.map (decode ∘ encode) data = List.map id data :=
          List.map_congr_left (fun x hx => decode_encode x (h x hx))
      _ = data := List.map_id _
  rw [h2] at h1
  exact h1

theorem radix_sort_doubles_key_sorted (data : List Nat) (h : ∀ x ∈ data, x < 2 ^ 64) :
    (radix_sort_doubles data).Pairwise (fun a b => encode a ≤ encode b) := by
  rw [← List.pairwise_map (R := fun a b => a ≤ b), radix_sort_doubles_keys data h]
  apply radix_sort_uint64_sorted
  intro k hk
  rw [List.mem_map] at hk
  obtain ⟨x, hx, rfl⟩ := hk
  exact encode_lt x (h x hx)

theorem isNaN_false_and_dle_of_encode_le (a b : Nat) (ha : a < 2 ^ 64) (hb : b < 2 ^ 64)
    (na : isNaN a = false) (nb : isNaN b = false) (h : encode a ≤ encode b) :
    dle a b = true := by
  unfold dle
  rw [na, nb]
  simpa using doubleValue_le_of_encode_le a b ha hb h

theorem encode_zero_order : encode negZero < encode posZero := by
  rw [encode_eq negZero (by norm_num [negZero]), encode_eq posZero (by norm_num [posZero])]
  norm_num [negZero, posZero]

theorem radix_sort_doubles_value_sorted (data : List Nat) (h : ∀ x ∈ data, x < 2 ^ 64)
    (hn : ∀ x ∈ data, isNaN x = false) :
    (radix_sort_doubles data).Pairwise (fun a b => dle a b = true) := by
  refine List.Pairwise.imp_of_mem ?_ (radix_sort_doubles_key_sorted data h)
  intro a b ha hb hab
  rw [(radix_sort_doubles_perm data h).mem_iff] at ha hb
  exact isNaN_false_and_dle_of_encode_le a b (h a ha) (h b hb) (hn a ha) (hn b hb) hab

/-! ## Claims about the codec and the local sort -/

/-- C1: decoding the key of any 64-bit pattern gives the pattern back, bit for bit
(NaN payloads, infinities and both zeros included). -/
theorem decode_encode_roundtrip (u : Nat) (hu : u < 2 ^ 64) :
    decode (encode u) = u ∧
    encode u = (if (u &&& 0x8000000000000000) ≠ 0 then 0xFFFFFFFFFFFFFFFF - u
      else u ||| 0x8000000000000000) ∧
    ∀ k, decode k = (if (k &&& 0x8000000000000000) ≠ 0
      then k &&& (0xFFFFFFFFFFFFFFFF - 0x8000000000000000) else 0xFFFFFFFFFFFFFFFF - k) :=
  ⟨decode_encode u hu, rfl, fun _ => rfl⟩

/-- Witness for C1 at a quiet NaN with the sign bit set. -/
theorem decode_encode_roundtrip_witness :
    (0xFFF8000000000001 : Nat) < 2 ^ 64 ∧
      decode (encode 0xFFF8000000000001) = 0xFFF8000000000001 :=
  ⟨by norm_num, (decode_encode_roundtrip 0xFFF8000000000001 (by norm_num)).1⟩

/-- C2: for two non-NaN doubles with `x < y`, the key of `x` is below the key of `y`;
and every pattern with the sign bit set has a key below every pattern with the sign
bit clear. -/
theorem encode_order_preserving (x y : Nat) (hx : x < 2 ^ 64) (hy : y < 2 ^ 64) :
    (dlt x y = true → encode x < encode y) ∧
    (signBit x = 1 → signBit y = 0 → encode x < encode y) := by
  refine ⟨fun h => ?_, encode_sign_split x y hx hy⟩
  unfold dlt at h
  simp only [Bool.and_eq_true, decide_eq_true_eq] at h
  exact encode_lt_of_doubleValue_lt x y hx hy h.2

set_option exponentiation.threshold 2100 in
/-- Witness for C2 at `-1.0 < 2.0`. -/
theorem encode_order_preserving_witness :
    (0xBFF0000000000000 : Nat) < 2 ^ 64 ∧ (0x4000000000000000 : Nat) < 2 ^ 64 ∧
      dlt 0xBFF0000000000000 0x4000000000000000 = true ∧
      encode 0xBFF0000000000000 < encode 0x4000000000000000 :=
  ⟨by norm_num, by norm_num, by decide,
   (encode_order_preserving 0xBFF0000000000000 0x4000000000000000
      (by norm_num) (by norm_num)).1 (by decide)⟩

/-- C3: `radix_sort_uint64` leaves in `keys_` a permutation of the input, of the same
length, in non-decreasing unsigned order. -/
theorem radix_sort_uint64_correct (keys : List Nat) (h : ∀ k ∈ keys, k < 2 ^ 64) :
    (radix_sort_uint64 keys).Perm keys ∧
    (radix_sort_uint64 keys).length = keys.length ∧
    (radix_sort_uint64 keys).Pairwise (fun a b => a ≤ b) :=
  ⟨radix_sort_uint64_perm keys, (radix_sort_uint64_perm keys).length_eq,
   radix_sort_uint64_sorted keys h⟩

/-- Witness for C3 on three keys that differ in their high and low bytes. -/
theorem radix_sort_uint64_correct_witness :
    (∀ k ∈ [0x0100000000000000, 0xFF, 0x0100], k < 2 ^ 64) ∧
    (radix_sort_uint64 [0x0100000000000000, 0xFF, 0x0100]).Perm
      [0x0100000000000000, 0xFF, 0x0100] ∧
    (radix_sort_uint64 [0x0100000000000000, 0xFF, 0x0100]).length = 3 ∧
    (radix_sort_uint64 [0x0100000000000000, 0xFF, 0x0100]).Pairwise (fun a b => a ≤ b) :=
  ⟨by decide, radix_sort_uint64_correct [0x0100000000000000, 0xFF, 0x0100] (by decide)⟩

/-- C4: `radix_sort_doubles` leaves in `data_` a permutation of the input patterns, of
the same length, whose keys are non-decreasing; without NaN in the input the result is
non-decreasing in numeric value and no `+0.0` stands before a `-0.0`. -/
theorem radix_sort_doubles_correct (data : List Nat) (h : ∀ x ∈ data, x < 2 ^ 64) :
    (radix_sort_doubles data).Perm data ∧
    (radix_sort_doubles data).length = data.length ∧
    ((radix_sort_doubles data).map encode).Pairwise (fun a b => a ≤ b) ∧
    ((∀ x ∈ data, isNaN x = false) →
      (radix_sort_doubles data).Pairwise
        (fun a b => dle a b = true ∧ ¬ (a = posZero ∧ b = negZero))) := by
  refine ⟨radix_sort_doubles_perm data h, (radix_sort_doubles_perm data h).length_eq,
    List.pairwise_map.2 (radix_sort_doubles_key_sorted data h), fun hn => ?_⟩
  refine List.Pairwise.imp_of_mem ?_ (radix_sort_doubles_key_sorted data h)
  intro a b ha hb hab
  rw [(radix_sort_doubles_perm data h).mem_iff] at ha hb
  refine ⟨isNaN_false_and_dle_of_encode_le a b (h a ha) (h b hb) (hn a ha) (hn b hb) hab, ?_⟩
  rintro ⟨rfl, rfl⟩
  have := encode_zero_order
  omega

/-- Witness for C4 on `[+0.0, -1.0, -0.0]`. -/
theorem radix_sort_doubles_correct_witness :
    (∀ x ∈ [0, 0xBFF0000000000000, 0x8000000000000000], x < 2 ^ 64) ∧
    (radix_sort_doubles [0, 0xBFF0000000000000, 0x8000000000000000]).Perm
      [0, 0xBFF0000000000000, 0x8000000000000000] :=
  ⟨by decide,
   (radix_sort_doubles_correct [0, 0xBFF0000000000000, 0x8000000000000000] (by decide)).1⟩

/-! ## Partition plan -/

theorem getD_map_range {α : Type} (f : Nat → α) (d : α) (m i : Nat) (hi : i < m) :
    ((List.range m).map f).getD i d = f i := by
  rw [List.getD_eq_getElem?_getD, List.getElem?_map, List.getElem?_range hi]
  rfl

theorem length_counts (n size : Nat) : (counts n size).length = size := by
  simp [counts]

theorem getD_counts (n size i : Nat) (hi : i < size) :
    (counts n size).getD i 0 = n / size + (if i < n % size then 1 else 0) := by
  unfold counts
  exact getD_map_range _ 0 size i hi

theorem sum_take_succ (l : List Nat) (i : Nat) :
    (l.take (i + 1)).sum = (l.take i).sum + l.getD i 0 := by
  induction l generalizing i with
  | nil => simp
  | cons a l ih =>
    cases i with
    | zero => simp
    | succ i =>
      have := ih i
      simp only [List.take_succ_cons, List.sum_cons, List.getD_cons_succ] at this ⊢
      omega

theorem sum_take_mono (l : List Nat) (a b : Nat) (h : a ≤ b) :
    (l.take a).sum ≤ (l.take b).sum := by
  induction b with
  | zero =>
    have : a = 0 := by omega
    subst this; exact le_refl _
  | succ b ih =>
    rcases Nat.lt_or_ge a (b + 1) with hlt | hge
    · have := ih (by omega)
      rw [sum_take_succ]; omega
    · have : a = b + 1 := by omega
      subst this; exact le_refl _

theorem sum_take_counts (n size m : Nat) (hm : m ≤ size) :
    ((counts n size).take m).sum = m * (n / size) + min m (n % size) := by
  induction m with
  | zero => simp
  | succ m ih =>
    rw [sum_take_succ, ih (by omega), getD_counts n size m (by omega), Nat.succ_mul]
    split <;> omega

theorem sum_counts (n size : Nat) (hs : 1 ≤ size) : (counts n size).sum = n := by
  have h := sum_take_counts n size size (le_refl _)
  rw [List.take_of_length_le (by rw [length_counts])] at h
  rw [h]
  have h1 : n % size < size := Nat.mod_lt _ (by omega)
  have h2 := Nat.div_add_mod n size
  omega

theorem countP_large_counts (n size m : Nat) :
    ((List.range m).map (fun i => n / size + (if i < n % size then 1 else 0))).countP
      (fun c => c == n / size + 1) = min m (n % size) := by
  induction m with
  | zero => simp
  | succ m ih =>
    rw [List.range_succ, List.map_append, List.countP_append, ih]
    by_cases h : m < n % size
    · simp [h]; omega
    · simp [h]; omega

theorem displs_fold_spec (size : Nat) (cnts : List Nat) (m : Nat) (hm : m + 1 ≤ size) :
    ((List.range m).foldl (fun d j => d.set (j + 1) (d.getD j 0 + cnts.getD j 0))
        ((List.replicate size 0).set 0 0)).length = size ∧
    ∀ i, ((List.range m).foldl (fun d j => d.set (j + 1) (d.getD j 0 + cnts.getD j 0))
        ((List.replicate size 0).set 0 0)).getD i 0 =
      if i ≤ m then (cnts.take i).sum else 0 := by
  induction m with
  | zero =>
    refine ⟨by simp, fun i => ?_⟩
    simp only [List.range_zero, List.foldl_nil]
    have hz : ((List.replicate size 0).set 0 0).getD i 0 = 0 := by
      rw [getD_set_eq]
      split
      · rfl
      · rw [List.getD_eq_getElem?_getD, List.getElem?_replicate]
        split <;> rfl
    rw [hz]
    by_cases hi : i ≤ 0
    · have : i = 0 := by omega
      subst this; simp
    · rw [if_neg hi]
  | succ m ih =>
    obtain ⟨hlen, hget⟩ := ih (by omega)
    rw [List.range_succ, List.foldl_append]
    simp only [List.foldl_cons, List.foldl_nil]
    refine ⟨by rw [List.length_set]; exact hlen, fun i => ?_⟩
    rw [getD_set_eq, hget m, hget i, hlen, if_pos (le_refl m)]
    by_cases hi : m + 1 = i
    · subst hi
      rw [if_pos ⟨rfl, by omega⟩, if_pos (le_refl _), sum_take_succ]
    · rw [if_neg (fun h => hi h.1)]
      by_cases him : i ≤ m
      · rw [if_pos him, if_pos (by omega)]
      · rw [if_neg him, if_neg (by omega)]

theorem length_displs (size : Nat) (cnts : List Nat) (hs : 1 ≤ size) :
    (displs size cnts).length = size := by
  have := (displs_fold_spec size cnts (size - 1) (by omega)).1
  exact this

theorem getD_displs (size : Nat) (cnts : List Nat) (i : Nat) (hi : i < size) :
    (displs size cnts).getD i 0 = (cnts.take i).sum := by
  have := (displs_fold_spec size cnts (size - 1) (by omega)).2 i
  rw [if_pos (by omega)] at this
  exact this

theorem chunk_index_exists (cnts : List Nat) (m j : Nat) (hj : j < (cnts.take m).sum) :
    ∃ i, i < m ∧ (cnts.take i).sum ≤ j ∧ j < (cnts.take (i + 1)).sum := by
  induction m with
  | zero => simp at hj
  | succ m ih =>
    rcases Nat.lt_or_ge j (cnts.take m).sum with hlt | hge
    · obtain ⟨i, hi, h1, h2⟩ := ih hlt
      exact ⟨i, by omega, h1, h2⟩
    · exact ⟨m, by omega, hge, hj⟩

/-- C8: on rank 0 the first `n % size` chunks get `n / size + 1` elements and the others
`n / size`; the sizes add up to `n`, none is below `n / size`, and exactly `n % size`
of them have the larger size. -/
theorem counts_partition (n size : Nat) (hs : 1 ≤ size) :
    (counts n size).length = size ∧
    (∀ i, i < size →
      (counts n size).getD i 0 = if i < n % size then n / size + 1 else n / size) ∧
    (counts n size).sum = n ∧
    (∀ c ∈ counts n size, n / size ≤ c) ∧
    (counts n size).countP (fun c => c == n / size + 1) = n % size := by
  refine ⟨length_counts n size, fun i hi => ?_, sum_counts n size hs, fun c hc => ?_, ?_⟩
  · rw [getD_counts n size i hi]; split <;> rfl
  · unfold counts at hc
    rw [List.mem_map] at hc
    obtain ⟨i, -, rfl⟩ := hc
    omega
  · unfold counts
    rw [countP_large_counts]
    have : n % size < size := Nat.mod_lt _ (by omega)
    omega

/-- Witness for C8 with `n = 7` elements on `size = 3` ranks. -/
theorem counts_partition_witness :
    (1 ≤ 3) ∧ counts 7 3 = [3, 2, 2] ∧ (counts 7 3).sum = 7 ∧
      (counts 7 3).countP (fun c => c == 7 / 3 + 1) = 7 % 3 :=
  ⟨by decide, by decide, (counts_partition 7 3 (by decide)).2.2.1,
   (counts_partition 7 3 (by decide)).2.2.2.2⟩

/-- C9: the offsets start at 0, each one is the previous offset plus the previous
chunk size, the last chunk ends at `n`, and every index below `n` lies in exactly one
chunk `[displs[i], displs[i] + counts[i])`. -/
theorem displs_partition (n size : Nat) (hs : 1 ≤ size) :
    (displs size (counts n size)).length = size ∧
    (∀ i, i < size → 0 ≤ (counts n size).getD i 0) ∧
    (displs size (counts n size)).getD 0 0 = 0 ∧
    (∀ i, 1 ≤ i → i < size →
      (displs size (counts n size)).getD i 0 =
        (displs size (counts n size)).getD (i - 1) 0 + (counts n size).getD (i - 1) 0) ∧
    (displs size (counts n size)).getD (size - 1) 0 + (counts n size).getD (size - 1) 0 = n ∧
    (∀ j, j < n → ∃! i, i < size ∧ (displs size (counts n size)).getD i 0 ≤ j ∧
      j < (displs size (counts n size)).getD i 0 + (counts n size).getD i 0) := by
  have hend : ∀ i, i < size →
      (displs size (counts n size)).getD i 0 + (counts n size).getD i 0 =
        ((counts n size).take (i + 1)).sum := by
    intro i hi
    rw [getD_displs size _ i hi, sum_take_succ]
  have hall : ((counts n size).take size).sum = n := by
    rw [List.take_of_length_le (by rw [length_counts]), sum_counts n size hs]
  refine ⟨length_displs size _ hs, fun _ _ => Nat.zero_le _, ?_, fun i h1 hi => ?_, ?_,
    fun j hj => ?_⟩
  · rw [getD_displs size _ 0 (by omega)]; simp
  · rw [getD_displs size _ i hi, getD_displs size _ (i - 1) (by omega), ← sum_take_succ]
    congr 3
    omega
  · rw [hend (size - 1) (by omega)]
    have : size - 1 + 1 = size := by omega
    rw [this, hall]
  · obtain ⟨i, hi, h1, h2⟩ := chunk_index_exists (counts n size) size j (by rw [hall]; exact hj)
    refine ⟨i, ⟨hi, by rw [getD_displs size _ i hi]; exact h1, by rw [hend i hi]; exact h2⟩, ?_⟩
    rintro i' ⟨hi', h1', h2'⟩
    rw [getD_displs size _ i' hi'] at h1'
    rw [hend i' hi'] at h2'
    rcases Nat.lt_trichotomy i i' with hlt | heq | hgt
    · have := sum_take_mono (counts n size) (i + 1) i' (by omega)
      omega
    · exact heq.symm
    · have := sum_take_mono (counts n size) (i' + 1) i (by omega)
      omega

/-- Witness for C9 with `n = 7` elements on `size = 3` ranks. -/
theorem displs_partition_witness :
    (1 ≤ 3) ∧ displs 3 (counts 7 3) = [0, 3, 5] ∧
      (displs 3 (counts 7 3)).getD (3 - 1) 0 + (counts 7 3).getD (3 - 1) 0 = 7 :=
  ⟨by decide, by decide, (displs_partition 7 3 (by decide)).2.2.2.2.1⟩

/-! ## The receiver's merge -/

theorem dle_of_dlt (x y : Nat) (h : dlt y x = true) : dle y x = true := by
  unfold dlt at h
  unfold dle
  simp only [Bool.and_eq_true, decide_eq_true_eq] at h ⊢
  exact ⟨h.1, le_of_lt h.2⟩

theorem dle_of_not_dlt (x y : Nat) (nx : isNaN x = false) (ny : isNaN y = false)
    (h : dlt y x = false) : dle x y = true := by
  unfold dlt at h
  unfold dle
  rw [nx, ny] at h ⊢
  simp only [Bool.not_false, Bool.and_self, Bool.true_and, decide_eq_false_iff_not,
    decide_eq_true_eq] at h ⊢
  omega

theorem dle_trans (x y z : Nat) (h1 : dle x y = true) (h2 : dle y z = true) :
    dle x z = true := by
  unfold dle at h1 h2 ⊢
  simp only [Bool.and_eq_true, decide_eq_true_eq] at h1 h2 ⊢
  exact ⟨⟨h1.1.1, h2.1.2⟩, le_trans h1.2 h2.2⟩

theorem stdMerge_perm (a b : List Nat) : (stdMerge a b).Perm (a ++ b) := by
  induction a, b using stdMerge.induct with
  | case1 l2 => rw [stdMerge]; exact List.Perm.refl _
  | case2 x xs => rw [stdMerge]; simp
  | case3 x xs y ys h ih =>
    rw [stdMerge, if_pos h]
    have h1 : (y :: stdMerge (x :: xs) ys).Perm (y :: ((x :: xs) ++ ys)) := ih.cons y
    exact h1.trans (List.perm_middle.symm)
  | case4 x xs y ys h ih =>
    rw [stdMerge, if_neg h]
    exact ih.cons x

theorem stdMerge_sorted (a b : List Nat) (na : ∀ x ∈ a, isNaN x = false)
    (nb : ∀ x ∈ b, isNaN x = false) (sa : a.Pairwise (fun u v => dle u v = true))
    (sb : b.Pairwise (fun u v => dle u v = true)) :
    (stdMerge a b).Pairwise (fun u v => dle u v = true) := by
  induction a, b using stdMerge.induct with
  | case1 l2 => rw [stdMerge]; exact sb
  | case2 x xs => rw [stdMerge]; exact sa
  | case3 x xs y ys h ih =>
    rw [stdMerge, if_pos h]
    rw [List.pairwise_cons] at sb
    refine List.Pairwise.cons ?_ (ih na (fun z hz => nb z (List.mem_cons_of_mem _ hz)) sa sb.2)
    intro z hz
    rw [(stdMerge_perm (x :: xs) ys).mem_iff, List.mem_append] at hz
    have hyx := dle_of_dlt x y h
    rcases hz with hz | hz
    · rcases List.mem_cons.1 hz with rfl | hz'
      · exact hyx
      · exact dle_trans y x z hyx ((List.pairwise_cons.1 sa).1 z hz')
    · exact sb.1 z hz
  | case4 x xs y ys h ih =>
    rw [stdMerge, if_neg h]
    rw [List.pairwise_cons] at sa
    refine List.Pairwise.cons ?_ (ih (fun z hz => na z (List.mem_cons_of_mem _ hz)) nb sa.2 sb)
    intro z hz
    rw [(stdMerge_perm xs (y :: ys)).mem_iff, List.mem_append] at hz
    have hxy := dle_of_not_dlt x y (na x (List.mem_cons_self _ _))
      (nb y (List.mem_cons_self _ _)) (by simpa using h)
    rcases hz with hz | hz
    · exact sa.1 z hz
    · rcases List.mem_cons.1 hz with rfl | hz'
      · exact hxy
      · exact dle_trans x y z hxy ((List.pairwise_cons.1 sb).1 z hz')

/-! ## The merge loop -/

theorem collect_map_some (l : List (List Nat)) : collect (l.map some) = some l := by
  induction l with
  | nil => rfl
  | cons b l ih => simp [collect, ih]

theorem partner_mod (g r : Nat) (hg : 0 < g) (hr : r % (g * 2) = 0) :
    (r + g) % (g * 2) = g := by
  rw [Nat.add_mod, hr, Nat.zero_add, Nat.mod_mod, Nat.mod_eq_of_lt (by omega)]

theorem rankStep_eq (size g : Nat) (bufs : List (List Nat)) (r : Nat) (hg : 0 < g) :
    rankStep size g bufs r = some (settledStep size g bufs r) := by
  unfold rankStep settledStep
  have hg0 : ¬ g = 0 := by omega
  by_cases hr : r % (g * 2) = 0
  · by_cases hp : r + g < size
    · have hm := partner_mod g r hg hr
      have hs : sendOf g (r + g) (bufs.getD (r + g) []) = some (r, bufs.getD (r + g) []) := by
        unfold sendOf
        rw [hm]
        simp [hg0]
      have c1 : (r % (g * 2) == 0 && decide (r + g < size)) = true := by simp [hr, hp]
      rw [if_pos c1, hs, if_pos hr, if_pos hp]
      simp only [if_true]
    · have c1 : ¬ (r % (g * 2) == 0 && decide (r + g < size)) = true := by simp [hr, hp]
      have c2 : ¬ (!(r % (g * 2) == 0) && r % (g * 2) == g) = true := by simp [hr]
      rw [if_neg c1, if_neg c2, if_pos hr, if_neg hp]
  · have c1 : ¬ (r % (g * 2) == 0 && decide (r + g < size)) = true := by simp [hr]
    by_cases hs : r % (g * 2) = g
    · have c2 : (!(r % (g * 2) == 0) && r % (g * 2) == g) = true := by
        rw [hs]; simp [hg0]
      rw [if_neg c1, if_pos c2, if_neg hr, if_pos hs]
    · have c2 : ¬ (!(r % (g * 2) == 0) && r % (g * 2) == g) = true := by simp [hr, hs]
      rw [if_neg c1, if_neg c2, if_neg hr, if_neg hs]

theorem mergeStep_eq (size g : Nat) (bufs : List (List Nat)) (hg : 0 < g) :
    mergeStep size g bufs = some ((List.range size).map (settledStep size g bufs)) := by
  unfold mergeStep
  have : (List.range size).map (rankStep size g bufs) =
      ((List.range size).map (settledStep size g bufs)).map some := by
    rw [List.map_map]
    exact List.map_congr_left (fun r _ => rankStep_eq size g bufs r hg)
  rw [this, collect_map_some]

theorem span_double (chunks : List (List Nat)) (r g : Nat) :
    ((chunks.drop r).take (g * 2)).flatten =
      ((chunks.drop r).take g).flatten ++ ((chunks.drop (r + g)).take g).flatten := by
  have : g * 2 = g + g := by omega
  rw [this, List.take_add, List.flatten_append, List.drop_drop]

theorem span_saturated (chunks : List (List Nat)) (r g : Nat) (h : chunks.length ≤ r + g) :
    ((chunks.drop r).take (g * 2)).flatten = ((chunks.drop r).take g).flatten := by
  have hl : (chunks.drop r).length ≤ g := by rw [List.length_drop]; omega
  rw [List.take_of_length_le hl, List.take_of_length_le (by omega)]

theorem span_one (chunks : List (List Nat)) (r : Nat) :
    ((chunks.drop r).take 1).flatten = chunks.getD r [] := by
  induction chunks generalizing r with
  | nil => simp
  | cons c cs ih =>
    cases r with
    | zero => simp
    | succ r => simpa using ih r

theorem mergeInv_step (size : Nat) (chunks bufs : List (List Nat)) (g : Nat)
    (hc : chunks.length = size) (hn : ∀ c ∈ chunks, ∀ x ∈ c, isNaN x = false)
    (inv : MergeInv size chunks g bufs) :
    MergeInv size chunks (g * 2) ((List.range size).map (settledStep size g bufs)) := by
  obtain ⟨hlen, hinv⟩ := inv
  refine ⟨by simp, fun r hr hmod => ?_⟩
  rw [getD_map_range _ _ size r hr]
  have hmodg : r % g = 0 := by
    have := Nat.mod_mul_right_mod r g 2
    rw [hmod] at this
    simpa using this.symm
  have hnan : ∀ r', r' < size → r' % g = 0 → ∀ x ∈ bufs.getD r' [], isNaN x = false := by
    intro r' hr' hm' x hx
    rw [(hinv r' hr' hm').1.mem_iff, List.mem_flatten] at hx
    obtain ⟨c, hc', hxc⟩ := hx
    exact hn c (List.mem_of_mem_drop (List.mem_of_mem_take hc')) x hxc
  unfold settledStep
  rw [if_pos hmod]
  by_cases hp : r + g < size
  · rw [if_pos hp]
    have hmodp : (r + g) % g = 0 := by
      rw [Nat.add_mod, hmodg, Nat.mod_self]; simp
    obtain ⟨p1, s1⟩ := hinv r hr hmodg
    obtain ⟨p2, s2⟩ := hinv (r + g) hp hmodp
    refine ⟨?_, stdMerge_sorted _ _ (hnan r hr hmodg) (hnan (r + g) hp hmodp) s1 s2⟩
    rw [span_double]
    exact (stdMerge_perm _ _).trans (p1.append p2)
  · rw [if_neg hp, span_saturated chunks r g (by omega)]
    exact hinv r hr hmodg

theorem mergeLoop_spec (size : Nat) (chunks : List (List Nat)) (hc : chunks.length = size)
    (hn : ∀ c ∈ chunks, ∀ x ∈ c, isNaN x = false) (steps : Nat) :
    ∀ (g : Nat) (bufs : List (List Nat)), 0 < g → MergeInv size chunks g bufs →
      ∃ bufs', mergeLoop size steps g bufs = some bufs' ∧
        MergeInv size chunks (g * 2 ^ steps) bufs' := by
  induction steps with
  | zero =>
    intro g bufs _ inv
    exact ⟨bufs, rfl, by simpa using inv⟩
  | succ steps ih =>
    intro g bufs hg inv
    obtain ⟨bufs', h1, h2⟩ := ih (g * 2) _ (by omega) (mergeInv_step size chunks bufs g hc hn inv)
    refine ⟨bufs', ?_, ?_⟩
    · rw [mergeLoop, mergeStep_eq size g bufs hg]
      exact h1
    · have : g * 2 ^ (steps + 1) = g * 2 * 2 ^ steps := by rw [pow_succ]; ring
      rw [this]
      exact h2

theorem stepsLoop_spec (tmp : Nat) : ∀ s, s ≤ stepsLoop tmp s ∧ tmp ≤ 2 ^ (stepsLoop tmp s - s) := by
  induction tmp using Nat.strong_induction_on with
  | _ tmp ih =>
    intro s
    rw [stepsLoop]
    by_cases h : tmp > 1
    · rw [dif_pos h]
      obtain ⟨h1, h2⟩ := ih ((tmp + 1) / 2) (by omega) (s + 1)
      refine ⟨by omega, ?_⟩
      have e : stepsLoop ((tmp + 1) / 2) (s + 1) - s =
          (stepsLoop ((tmp + 1) / 2) (s + 1) - (s + 1)) + 1 := by omega
      rw [e, pow_succ]
      omega
    · rw [dif_neg h]
      simp
      omega

/-! ## The whole parallel run -/

theorem mem_scatterv (data cnts dsp : List Nat) (rank x : Nat)
    (hx : x ∈ scatterv data cnts dsp rank) : x ∈ data :=
  List.mem_of_mem_drop (List.mem_of_mem_take hx)

theorem length_localSorted (size : Nat) (data : List Nat) :
    (localSorted size data).length = size := by
  simp [localSorted]

theorem mem_localSorted (size : Nat) (data : List Nat) (hb : ∀ x ∈ data, x < 2 ^ 64)
    (c : List Nat) (hc : c ∈ localSorted size data) (x : Nat) (hx : x ∈ c) : x ∈ data := by
  unfold localSorted at hc
  rw [List.mem_map] at hc
  obtain ⟨r, -, rfl⟩ := hc
  have hsub : ∀ y ∈ scatterv data (counts data.length size)
      (displs size (counts data.length size)) r, y < 2 ^ 64 :=
    fun y hy => hb y (mem_scatterv _ _ _ _ y hy)
  rw [(radix_sort_doubles_perm _ hsub).mem_iff] at hx
  exact mem_scatterv _ _ _ _ x hx

theorem localSorted_flatten_take (size : Nat) (data : List Nat) (hb : ∀ x ∈ data, x < 2 ^ 64)
    (m : Nat) (hm : m ≤ size) :
    (((List.range m).map (fun rank =>
      radix_sort_doubles
        (scatterv data (counts data.length size) (displs size (counts data.length size))
          rank))).flatten).Perm (data.take (((counts data.length size).take m).sum)) := by
  induction m with
  | zero => simp
  | succ m ih =>
    rw [List.range_succ, List.map_append, List.flatten_append, sum_take_succ, List.take_add]
    refine (ih (by omega)).append ?_
    simp only [List.map_cons, List.map_nil, List.flatten_cons, List.flatten_nil,
      List.append_nil]
    have hsub : ∀ y ∈ scatterv data (counts data.length size)
        (displs size (counts data.length size)) m, y < 2 ^ 64 :=
      fun y hy => hb y (mem_scatterv _ _ _ _ y hy)
    have := radix_sort_doubles_perm _ hsub
    unfold scatterv at this ⊢
    rw [getD_displs size _ m (by omega)] at this ⊢
    exact this

theorem localSorted_flatten (size : Nat) (data : List Nat) (hs : 1 ≤ size)
    (hb : ∀ x ∈ data, x < 2 ^ 64) : ((localSorted size data).flatten).Perm data := by
  have h := localSorted_flatten_take size data hb size (le_refl _)
  rw [List.take_of_length_le (l := counts data.length size) (by rw [length_counts]),
    sum_counts data.length size hs, List.take_of_length_le (le_refl _)] at h
  exact h

theorem mergeInv_init (size : Nat) (data : List Nat) (hb : ∀ x ∈ data, x < 2 ^ 64)
    (hn : ∀ x ∈ data, isNaN x = false) :
    MergeInv size (localSorted size data) 1 (localSorted size data) := by
  refine ⟨length_localSorted size data, fun r hr _ => ?_⟩
  rw [span_one]
  refine ⟨List.Perm.refl _, ?_⟩
  unfold localSorted
  rw [getD_map_range _ _ size r hr]
  exact radix_sort_doubles_value_sorted _
    (fun y hy => hb y (mem_scatterv _ _ _ _ y hy))
    (fun y hy => hn y (mem_scatterv _ _ _ _ y hy))

theorem runImpl_spec (size : Nat) (data : List Nat) (hs : 1 ≤ size)
    (hb : ∀ x ∈ data, x < 2 ^ 64) (hn : ∀ x ∈ data, isNaN x = false) :
    ∃ out, RadixSortParallel.RunImpl size data = some out ∧ out.Perm data ∧
      out.Pairwise (fun a b => dle a b = true) := by
  have hnc : ∀ c ∈ localSorted size data, ∀ x ∈ c, isNaN x = false :=
    fun c hc x hx => hn x (mem_localSorted size data hb c hc x hx)
  obtain ⟨bufs, hrun, -, hinv⟩ := mergeLoop_spec size (localSorted size data)
    (length_localSorted size data) hnc (stepsLoop size 0) 1 (localSorted size data)
    (by decide) (mergeInv_init size data hb hn)
  obtain ⟨hp, hsorted⟩ := hinv 0 (by omega) (Nat.zero_mod _)
  refine ⟨bufs.getD 0 [], ?_, ?_, hsorted⟩
  · unfold RadixSortParallel.RunImpl
    rw [hrun]
  · have hsteps := (stepsLoop_spec size 0).2
    rw [Nat.sub_zero] at hsteps
    rw [List.drop_zero, List.take_of_length_le
      (by rw [length_localSorted]; omega)] at hp
    exact hp.trans (localSorted_flatten size data hs hb)

/-- C5: for `size >= 1` ranks and a NaN-free input, `RadixSortParallel::RunImpl` returns,
and the buffer it leaves on rank 0 has the input's length, is a permutation of the
input and is ascending under the comparison `<=` of doubles. -/
theorem parallel_sort_correct (size : Nat) (data : List Nat) (hs : 1 ≤ size)
    (hb : ∀ x ∈ data, x < 2 ^ 64) (hn : ∀ x ∈ data, isNaN x = false) :
    ∃ out, RadixSortParallel.RunImpl size data = some out ∧ out.length = data.length ∧
      out.Perm data ∧ out.Pairwise (fun a b => dle a b = true) := by
  obtain ⟨out, h1, h2, h3⟩ := runImpl_spec size data hs hb hn
  exact ⟨out, h1, h2.length_eq, h2, h3⟩

/-- Witness for C5 with three ranks and `[2.0, -1.0, +0.0, -0.0, 1.0]`. -/
theorem parallel_sort_correct_witness :
    (1 ≤ 3) ∧
    (∀ x ∈ [0x4000000000000000, 0xBFF0000000000000, 0, 0x8000000000000000,
      0x3FF0000000000000], x < 2 ^ 64) ∧
    (∀ x ∈ [0x4000000000000000, 0xBFF0000000000000, 0, 0x8000000000000000,
      0x3FF0000000000000], isNaN x = false) ∧
    ∃ out, RadixSortParallel.RunImpl 3 [0x4000000000000000, 0xBFF0000000000000, 0,
        0x8000000000000000, 0x3FF0000000000000] = some out ∧ out.length = 5 :=
  ⟨by decide, by decide, by decide,
   (parallel_sort_correct 3 [0x4000000000000000, 0xBFF0000000000000, 0,
      0x8000000000000000, 0x3FF0000000000000] (by decide) (by decide) (by decide)).imp
     (fun _ h => ⟨h.1, h.2.1⟩)⟩

/-! ## Key order against value order -/

theorem mod_eq_of_magnitude_eq (a b : Nat) (h : magnitude a = magnitude b) :
    a % 2 ^ 63 = b % 2 ^ 63 := by
  rcases Nat.lt_trichotomy (a % 2 ^ 63) (b % 2 ^ 63) with hlt | heq | hgt
  · have := magnitude_lt_of_mod_lt a b hlt; omega
  · exact heq
  · have := magnitude_lt_of_mod_lt b a hgt; omega

theorem magnitude_pos_of_mod_pos (a : Nat) (h : 0 < a % 2 ^ 63) : 0 < magnitude a := by
  have := magnitude_lt_of_mod_lt 0 a (by simpa using h)
  omega

theorem eq_or_zeros_of_doubleValue_eq (a b : Nat) (ha : a < 2 ^ 64) (hb : b < 2 ^ 64)
    (h : doubleValue a = doubleValue b) :
    a = b ∨ (a = posZero ∧ b = negZero) ∨ (a = negZero ∧ b = posZero) := by
  unfold doubleValue at h
  rw [signBit_eq a ha, signBit_eq b hb] at h
  unfold posZero negZero
  by_cases sa : 2 ^ 63 ≤ a <;> by_cases sb : 2 ^ 63 ≤ b
  · rw [if_pos sa, if_pos sb, if_pos rfl, if_pos rfl] at h
    have := mod_eq_of_magnitude_eq a b (by omega)
    left; omega
  · rw [if_pos sa, if_neg sb, if_pos rfl, if_neg (by decide)] at h
    have h1 : ¬ 0 < a % 2 ^ 63 := fun hp => by
      have := magnitude_pos_of_mod_pos a hp; omega
    have h2 : ¬ 0 < b % 2 ^ 63 := fun hp => by
      have := magnitude_pos_of_mod_pos b hp; omega
    right; right; omega
  · rw [if_neg sa, if_pos sb, if_neg (by decide), if_pos rfl] at h
    have h1 : ¬ 0 < a % 2 ^ 63 := fun hp => by
      have := magnitude_pos_of_mod_pos a hp; omega
    have h2 : ¬ 0 < b % 2 ^ 63 := fun hp => by
      have := magnitude_pos_of_mod_pos b hp; omega
    right; left; omega
  · rw [if_neg sa, if_neg sb, if_neg (by decide), if_neg (by decide)] at h
    have := mod_eq_of_magnitude_eq a b (by omega)
    left; omega

theorem encode_le_of_dle (a b : Nat) (ha : a < 2 ^ 64) (hb : b < 2 ^ 64)
    (hz : ¬ ((a = posZero ∧ b = negZero) ∨ (a = negZero ∧ b = posZero)))
    (h : dle a b = true) : encode a ≤ encode b := by
  by_contra hc
  have h1 := doubleValue_le_of_encode_le b a hb ha (by omega)
  unfold dle at h
  simp only [Bool.and_eq_true, decide_eq_true_eq] at h
  rcases eq_or_zeros_of_doubleValue_eq a b ha hb (le_antisymm h.2 h1) with heq | hzz
  · subst heq; omega
  · exact hz hzz

theorem radix_sort_doubles_unique (data l : List Nat) (hb : ∀ x ∈ data, x < 2 ^ 64)
    (hp : l.Perm data) (hs : l.Pairwise (fun a b => encode a ≤ encode b)) :
    radix_sort_doubles data = l := by
  have hperm : ((radix_sort_doubles data).map encode).Perm (l.map encode) :=
    ((radix_sort_doubles_perm data hb).trans hp.symm).map encode
  have heq : (radix_sort_doubles data).map encode = l.map encode :=
    List.eq_of_perm_of_sorted (r := fun a b : Nat => a ≤ b) hperm
      (List.pairwise_map.2 (radix_sort_doubles_key_sorted data hb)) (List.pairwise_map.2 hs)
  have hback : ∀ m : List Nat, (∀ x ∈ m, x < 2 ^ 64) → (m.map encode).map decode = m := by
    intro m hm
    rw [List.map_map]
    calc List.map (decode ∘ encode) m = List.map id m :=
          List.map_congr_left (fun x hx => decode_encode x (hm x hx))
      _ = m := List.map_id _
  rw [← hback (radix_sort_doubles data)
      (fun x hx => hb x ((radix_sort_doubles_perm data hb).mem_iff.1 hx)),
    heq, hback l (fun x hx => hb x (hp.mem_iff.1 hx))]

/-! ## Runs with one and two ranks -/

theorem stepsLoop_one : stepsLoop 1 0 = 0 := by
  rw [stepsLoop, dif_neg (by decide)]

theorem stepsLoop_two : stepsLoop 2 0 = 1 := by
  rw [stepsLoop, dif_pos (by decide), stepsLoop, dif_neg (by decide)]

theorem localSorted_one (data : List Nat) : localSorted 1 data = [radix_sort_doubles data] := by
  have hc : counts data.length 1 = [data.length] := by
    simp [counts, Nat.mod_one]
  have hd : ∀ c : List Nat, displs 1 c = [0] := fun c => rfl
  have hr : List.range 1 = [0] := rfl
  unfold localSorted
  rw [hc, hd, hr]
  simp [scatterv]

theorem runImpl_one (data : List Nat) :
    RadixSortParallel.RunImpl 1 data = some (radix_sort_doubles data) := by
  unfold RadixSortParallel.RunImpl
  rw [stepsLoop_one, localSorted_one]
  rfl

theorem runImpl_two (data : List Nat) :
    RadixSortParallel.RunImpl 2 data =
      some (stdMerge ((localSorted 2 data).getD 0 []) ((localSorted 2 data).getD 1 [])) := by
  unfold RadixSortParallel.RunImpl
  rw [stepsLoop_two, mergeLoop, mergeStep_eq 2 1 _ (by decide)]
  simp only [mergeLoop]
  rw [getD_map_range _ _ 2 0 (by decide)]
  rfl

theorem stdMerge_take_second (x y : Nat) (xs ys : List Nat) (h : dlt y x = true) :
    stdMerge (x :: xs) (y :: ys) = y :: stdMerge (x :: xs) ys := by
  rw [stdMerge, if_pos h]

theorem stdMerge_take_first (x y : Nat) (xs ys : List Nat) (h : dlt y x = false) :
    stdMerge (x :: xs) (y :: ys) = x :: stdMerge xs (y :: ys) := by
  rw [stdMerge, if_neg (by simp [h])]

theorem stdMerge_nil_left (l : List Nat) : stdMerge [] l = l := by
  rw [stdMerge]

theorem stdMerge_nil_right (l : List Nat) : stdMerge l [] = l := by
  cases l with
  | nil => rw [stdMerge]
  | cons x xs => rw [stdMerge]

theorem localSorted_two (data : List Nat) :
    localSorted 2 data =
      [radix_sort_doubles (scatterv data (counts data.length 2)
          (displs 2 (counts data.length 2)) 0),
       radix_sort_doubles (scatterv data (counts data.length 2)
          (displs 2 (counts data.length 2)) 1)] := by
  have hr : List.range 2 = [0, 1] := rfl
  unfold localSorted
  rw [hr]
  rfl

theorem runImpl_zero_pair :
    RadixSortParallel.RunImpl 2 [posZero, negZero] = some [posZero, negZero] := by
  have h0 : scatterv [posZero, negZero] (counts 2 2) (displs 2 (counts 2 2)) 0 = [posZero] := by
    decide
  have h1 : scatterv [posZero, negZero] (counts 2 2) (displs 2 (counts 2 2)) 1 = [negZero] := by
    decide
  have s0 : radix_sort_doubles [posZero] = [posZero] :=
    radix_sort_doubles_unique _ _ (by decide) (List.Perm.refl _) (List.pairwise_singleton _ _)
  have s1 : radix_sort_doubles [negZero] = [negZero] :=
    radix_sort_doubles_unique _ _ (by decide) (List.Perm.refl _) (List.pairwise_singleton _ _)
  have hl : localSorted 2 [posZero, negZero] = [[posZero], [negZero]] := by
    rw [localSorted_two]
    simp only [List.length_cons, List.length_nil]
    rw [h0, h1, s0, s1]
  rw [runImpl_two, hl]
  simp only [List.getD_cons_zero, List.getD_cons_succ]
  rw [stdMerge_take_first _ _ _ _ (by decide), stdMerge_nil_left]

theorem sequential_zero_pair :
    RadixSortSequential.RunImpl [posZero, negZero] = [negZero, posZero] := by
  unfold RadixSortSequential.RunImpl
  exact radix_sort_doubles_unique _ _ (by decide) (by decide) (by decide)

theorem runImpl_key_sorted (size : Nat) (data : List Nat) (hs : 1 ≤ size)
    (hb : ∀ x ∈ data, x < 2 ^ 64) (hn : ∀ x ∈ data, isNaN x = false)
    (hz : ¬ (posZero ∈ data ∧ negZero ∈ data)) :
    ∃ out, RadixSortParallel.RunImpl size data = some out ∧
      out.Pairwise (fun a b => encode a ≤ encode b) ∧ out = radix_sort_doubles data := by
  obtain ⟨out, hrun, hperm, hsorted⟩ := runImpl_spec size data hs hb hn
  have hkey : out.Pairwise (fun a b => encode a ≤ encode b) := by
    refine List.Pairwise.imp_of_mem ?_ hsorted
    intro a b ha hb' hab
    rw [hperm.mem_iff] at ha hb'
    refine encode_le_of_dle a b (hb a ha) (hb b hb') ?_ hab
    rintro (⟨rfl, rfl⟩ | ⟨rfl, rfl⟩)
    · exact hz ⟨ha, hb'⟩
    · exact hz ⟨hb', ha⟩
  exact ⟨out, hrun, hkey, (radix_sort_doubles_unique data out hb hperm hkey).symm⟩

/-! ## Claims about the parallel run -/

/-- C6, as amended: for `size >= 1` ranks and an input without NaN that does not hold
both `+0.0` and `-0.0`, the output on rank 0 has non-decreasing keys and equals the
output of `RadixSortSequential` bit for bit. -/
theorem parallel_output_key_sorted (size : Nat) (data : List Nat) (hs : 1 ≤ size)
    (hb : ∀ x ∈ data, x < 2 ^ 64) (hn : ∀ x ∈ data, isNaN x = false)
    (hz : ¬ (posZero ∈ data ∧ negZero ∈ data)) :
    ∃ out, RadixSortParallel.RunImpl size data = some out ∧
      (out.map encode).Pairwise (fun a b => a ≤ b) ∧
      out = RadixSortSequential.RunImpl data := by
  obtain ⟨out, h1, h2, h3⟩ := runImpl_key_sorted size data hs hb hn hz
  exact ⟨out, h1, List.pairwise_map.2 h2, h3⟩

/-- Witness for C6 (amended) with three ranks and `[2.0, -1.0, -0.0, 1.0]`. -/
theorem parallel_output_key_sorted_witness :
    (1 ≤ 3) ∧
    (∀ x ∈ [0x4000000000000000, 0xBFF0000000000000, 0x8000000000000000,
      0x3FF0000000000000], x < 2 ^ 64) ∧
    (∀ x ∈ [0x4000000000000000, 0xBFF0000000000000, 0x8000000000000000,
      0x3FF0000000000000], isNaN x = false) ∧
    ¬ (posZero ∈ [0x4000000000000000, 0xBFF0000000000000, 0x8000000000000000,
        0x3FF0000000000000] ∧
       negZero ∈ [0x4000000000000000, 0xBFF0000000000000, 0x8000000000000000,
        0x3FF0000000000000]) ∧
    ∃ out, RadixSortParallel.RunImpl 3 [0x4000000000000000, 0xBFF0000000000000,
        0x8000000000000000, 0x3FF0000000000000] = some out ∧
      out = RadixSortSequential.RunImpl [0x4000000000000000, 0xBFF0000000000000,
        0x8000000000000000, 0x3FF0000000000000] :=
  ⟨by decide, by decide, by decide, by decide,
   (parallel_output_key_sorted 3 [0x4000000000000000, 0xBFF0000000000000,
      0x8000000000000000, 0x3FF0000000000000] (by decide) (by decide) (by decide)
      (by decide)).imp (fun _ h => ⟨h.1, h.2.2⟩)⟩

/-- Counterexample to C6 as stated: with two ranks and the input `[+0.0, -0.0]` the
output on rank 0 is `[+0.0, -0.0]`; its keys decrease and the sequential output is
`[-0.0, +0.0]`. -/
theorem parallel_output_key_sorted_counterexample :
    ∃ out, RadixSortParallel.RunImpl 2 [posZero, negZero] = some out ∧
      ¬ (out.map encode).Pairwise (fun a b => a ≤ b) ∧
      out ≠ RadixSortSequential.RunImpl [posZero, negZero] := by
  refine ⟨[posZero, negZero], runImpl_zero_pair, by decide, ?_⟩
  rw [sequential_zero_pair]
  decide

theorem example_chunk0 :
    scatterv exampleInput (counts exampleInput.length 2)
      (displs 2 (counts exampleInput.length 2)) 0 =
      [0x400C000000000000, 0xBFF0000000000000, 0x0000000000000000] := by
  decide

theorem example_chunk1 :
    scatterv exampleInput (counts exampleInput.length 2)
      (displs 2 (counts exampleInput.length 2)) 1 =
      [0x8000000000000000, 0x4002000000000000, 0xC002000000000000] := by
  decide

theorem example_localSorted :
    localSorted 2 exampleInput =
      [[0xBFF0000000000000, 0x0000000000000000, 0x400C000000000000],
       [0xC002000000000000, 0x8000000000000000, 0x4002000000000000]] := by
  rw [localSorted_two, example_chunk0, example_chunk1,
    radix_sort_doubles_unique [0x400C000000000000, 0xBFF0000000000000, 0x0000000000000000]
      [0xBFF0000000000000, 0x0000000000000000, 0x400C000000000000]
      (by decide) (by decide) (by decide),
    radix_sort_doubles_unique [0x8000000000000000, 0x4002000000000000, 0xC002000000000000]
      [0xC002000000000000, 0x8000000000000000, 0x4002000000000000]
      (by decide) (by decide) (by decide)]

set_option exponentiation.threshold 2100 in
theorem runImpl_example :
    RadixSortParallel.RunImpl 2 exampleInput =
      some [0xC002000000000000, 0xBFF0000000000000, 0x0000000000000000,
            0x8000000000000000, 0x4002000000000000, 0x400C000000000000] := by
  rw [runImpl_two, example_localSorted]
  simp only [List.getD_cons_zero, List.getD_cons_succ]
  rw [stdMerge_take_second _ _ _ _ (by decide), stdMerge_take_first _ _ _ _ (by decide),
    stdMerge_take_first _ _ _ _ (by decide), stdMerge_take_second _ _ _ _ (by decide),
    stdMerge_take_second _ _ _ _ (by decide), stdMerge_nil_right]

/-- C7, as amended: for the input `[3.5, -1.0, 0.0, -0.0, 2.25, -2.25]` on two ranks,
rank 0 gets `[3.5, -1.0, 0.0]`, rank 1 gets `[-0.0, 2.25, -2.25]`, and the output on
rank 0 is, bit for bit, `[-2.25, -1.0, 0.0, -0.0, 2.25, 3.5]`: the merge compares
doubles, `0.0` and `-0.0` tie, and the tie takes rank 0's own `0.0` first. -/
theorem example_run :
    scatterv exampleInput (counts exampleInput.length 2)
      (displs 2 (counts exampleInput.length 2)) 0 =
      [0x400C000000000000, 0xBFF0000000000000, 0x0000000000000000] ∧
    scatterv exampleInput (counts exampleInput.length 2)
      (displs 2 (counts exampleInput.length 2)) 1 =
      [0x8000000000000000, 0x4002000000000000, 0xC002000000000000] ∧
    RadixSortParallel.RunImpl 2 exampleInput =
      some [0xC002000000000000, 0xBFF0000000000000, 0x0000000000000000,
            0x8000000000000000, 0x4002000000000000, 0x400C000000000000] :=
  ⟨example_chunk0, example_chunk1, runImpl_example⟩

/-- Counterexample to C7 as stated: the output on rank 0 is not
`[-2.25, -1.0, -0.0, 0.0, 2.25, 3.5]`. -/
theorem example_run_counterexample :
    RadixSortParallel.RunImpl 2 exampleInput ≠
      some [0xC002000000000000, 0xBFF0000000000000, 0x8000000000000000,
            0x0000000000000000, 0x4002000000000000, 0x400C000000000000] := by
  rw [runImpl_example]
  decide

/-- C10: with one rank the step count is 0, the merge loop leaves the buffers as they
are, and the result on rank 0 is the result of `radix_sort_doubles` on the whole
input, that is the result of `RadixSortSequential`. -/
theorem single_rank_run :
    stepsLoop 1 0 = 0 ∧
    (∀ bufs, mergeLoop 1 (stepsLoop 1 0) 1 bufs = some bufs) ∧
    ∀ data, RadixSortParallel.RunImpl 1 data = some (RadixSortSequential.RunImpl data) := by
  refine ⟨stepsLoop_one, fun bufs => ?_, fun data => runImpl_one data⟩
  rw [stepsLoop_one]
  rfl

/-! ## Step count and roles in the merge tree -/

theorem stepsLoop_le (tmp : Nat) : ∀ s k, tmp ≤ 2 ^ k → stepsLoop tmp s ≤ s + k := by
  induction tmp using Nat.strong_induction_on with
  | _ tmp ih =>
    intro s k hk
    rw [stepsLoop]
    by_cases h : tmp > 1
    · rw [dif_pos h]
      cases k with
      | zero => simp at hk; omega
      | succ k =>
        rw [pow_succ] at hk
        have := ih ((tmp + 1) / 2) (by omega) (s + 1) k (by omega)
        omega
    · rw [dif_neg h]; omega

theorem groupSizeAt_eq (step : Nat) : groupSizeAt step = 2 ^ step := by
  induction step with
  | zero => rfl
  | succ step ih => rw [groupSizeAt, ih, pow_succ]

theorem groupSizeAt_pos (step : Nat) : 0 < groupSizeAt step := by
  rw [groupSizeAt_eq]; exact Nat.two_pow_pos step

theorem mergeLoop_add (size a : Nat) :
    ∀ (b g : Nat) (bufs : List (List Nat)),
      mergeLoop size (a + b) g bufs =
        (mergeLoop size a g bufs).bind (fun bufs' => mergeLoop size b (g * 2 ^ a) bufs') := by
  induction a with
  | zero => intro b g bufs; simp [mergeLoop]
  | succ a ih =>
    intro b g bufs
    have e : a + 1 + b = (a + b) + 1 := by omega
    rw [e, mergeLoop, mergeLoop]
    cases hstep : mergeStep size g bufs with
    | none => rfl
    | some bufs' =>
      simp only []
      rw [ih b (g * 2) bufs']
      have e2 : g * 2 * 2 ^ a = g * 2 ^ (a + 1) := by rw [pow_succ]; ring
      rw [e2]

theorem sendOf_eq_some (g r : Nat) (buf : List Nat) (hg : 0 < g) (h : r % (g * 2) = g) :
    sendOf g r buf = some (r - g, buf) := by
  unfold sendOf
  have hg0 : ¬ g = 0 := by omega
  rw [h]; simp [hg0]

theorem sendOf_eq_none (g r : Nat) (buf : List Nat) (h : r % (g * 2) ≠ g) :
    sendOf g r buf = none := by
  unfold sendOf
  simp [h]

theorem sendOf_isSome_iff (g r : Nat) (buf : List Nat) (hg : 0 < g) :
    (sendOf g r buf).isSome = true ↔ r % (g * 2) = g := by
  constructor
  · intro h
    by_contra hc
    rw [sendOf_eq_none g r buf hc] at h
    simp at h
  · intro h
    rw [sendOf_eq_some g r buf hg h]; rfl

theorem sender_iff_lowest_bit (j r : Nat) :
    r % (2 ^ j * 2) = 2 ^ j ↔ 2 ^ j ∣ r ∧ ¬ 2 ^ j * 2 ∣ r := by
  have hpos : 0 < 2 ^ j := Nat.two_pow_pos j
  constructor
  · intro h
    have hd := Nat.div_add_mod r (2 ^ j * 2)
    rw [h] at hd
    refine ⟨⟨2 * (r / (2 ^ j * 2)) + 1, ?_⟩, fun hdv => ?_⟩
    · calc r = 2 ^ j * 2 * (r / (2 ^ j * 2)) + 2 ^ j := hd.symm
        _ = 2 ^ j * (2 * (r / (2 ^ j * 2)) + 1) := by ring
    · have := Nat.mod_eq_zero_of_dvd hdv
      omega
  · rintro ⟨⟨m, rfl⟩, hnd⟩
    rw [Nat.mul_mod_mul_left]
    have hm : m % 2 = 1 := by
      by_contra hc
      have hm0 : m % 2 = 0 := by omega
      apply hnd
      obtain ⟨t, ht⟩ := Nat.dvd_of_mod_eq_zero hm0
      exact ⟨t, by rw [ht]; ring⟩
    rw [hm, Nat.mul_one]

theorem sender_step_exists (r : Nat) (hr : 0 < r) :
    ∃ j, r % (2 ^ j * 2) = 2 ^ j ∧ 2 ^ j ≤ r := by
  induction r using Nat.strong_induction_on with
  | _ r ih =>
    by_cases hodd : r % 2 = 1
    · exact ⟨0, by simpa using hodd, by simpa using hr⟩
    · obtain ⟨j, h1, h2⟩ := ih (r / 2) (by omega) (by omega)
      refine ⟨j + 1, ?_, ?_⟩
      · have hr2 : r = 2 * (r / 2) := by omega
        have e1 : 2 ^ (j + 1) * 2 = 2 * (2 ^ j * 2) := by rw [pow_succ]; ring
        have e2 : 2 ^ (j + 1) = 2 * 2 ^ j := by rw [pow_succ]; ring
        rw [e1, e2, hr2, Nat.mul_mod_mul_left, h1]
      · rw [pow_succ]; omega

theorem sender_never_again (j j' r : Nat) (h : r % (2 ^ j * 2) = 2 ^ j) (hj : j < j') :
    r % (2 ^ j' * 2) ≠ 0 ∧ r % (2 ^ j' * 2) ≠ 2 ^ j' := by
  have hpos : 0 < 2 ^ j := Nat.two_pow_pos j
  have e : 2 ^ j * 2 = 2 ^ (j + 1) := (pow_succ 2 j).symm
  have e' : 2 ^ j' * 2 = 2 ^ (j' + 1) := (pow_succ 2 j').symm
  have d1 : 2 ^ (j + 1) ∣ 2 ^ (j' + 1) := Nat.pow_dvd_pow 2 (by omega)
  have d2 : 2 ^ (j + 1) ∣ 2 ^ j' := Nat.pow_dvd_pow 2 (by omega)
  have hmm := Nat.mod_mod_of_dvd r d1
  rw [← e, ← e'] at hmm
  constructor
  · intro h0
    rw [h0, h] at hmm
    simp at hmm
    omega
  · intro h1
    rw [h1, h] at hmm
    rw [← e] at d2
    have := Nat.mod_eq_zero_of_dvd d2
    omega

/-- C11: the loop `tmp = (tmp + 1) / 2` ends (the function is total) with
`steps = ceil(log2 size)`: `2^steps >= size`, and no smaller exponent has this
property. -/
theorem steps_is_ceil_log2 (size : Nat) :
    size ≤ 2 ^ stepsLoop size 0 ∧ (∀ k, size ≤ 2 ^ k → stepsLoop size 0 ≤ k) ∧
      stepsLoop size 0 = Nat.clog 2 size := by
  have h1 : size ≤ 2 ^ stepsLoop size 0 := by
    have := (stepsLoop_spec size 0).2
    simpa using this
  have h2 : ∀ k, size ≤ 2 ^ k → stepsLoop size 0 ≤ k := by
    intro k hk
    have := stepsLoop_le size 0 k hk
    omega
  refine ⟨h1, h2, le_antisymm ?_ ?_⟩
  · exact h2 _ ((Nat.le_pow_iff_clog_le (by decide)).2 (le_refl _))
  · exact (Nat.le_pow_iff_clog_le (by decide)).1 h1

/-- C12: a rank that sends at some step neither sends nor is a merger at any later
step; every non-zero rank below `size` sends at exactly one of the `steps` steps, the
one whose `group_size` is the lowest set bit of the rank; rank 0 never sends. -/
theorem sender_absorbed (size r : Nat) (hr : r < size) :
    (∀ j buf, (sendOf (groupSizeAt j) r buf).isSome = true →
      ∀ j', j < j' → (∀ buf', sendOf (groupSizeAt j') r buf' = none) ∧
        r % (groupSizeAt j' * 2) ≠ 0) ∧
    (0 < r → ∃! j, j < stepsLoop size 0 ∧
      ∀ buf, sendOf (groupSizeAt j) r buf = some (r - groupSizeAt j, buf)) ∧
    (∀ j buf, (sendOf (groupSizeAt j) r buf).isSome = true ↔
      groupSizeAt j ∣ r ∧ ¬ groupSizeAt j * 2 ∣ r) ∧
    (r = 0 → ∀ j buf, sendOf (groupSizeAt j) r buf = none) := by
  refine ⟨fun j buf h j' hj => ?_, fun hpos => ?_, fun j buf => ?_, fun h0 j buf => ?_⟩
  · rw [sendOf_isSome_iff _ _ _ (groupSizeAt_pos j), groupSizeAt_eq] at h
    obtain ⟨n1, n2⟩ := sender_never_again j j' r h hj
    rw [groupSizeAt_eq]
    exact ⟨fun buf' => sendOf_eq_none _ _ _ n2, n1⟩
  · obtain ⟨j, h1, h2⟩ := sender_step_exists r hpos
    have hsz : size ≤ 2 ^ stepsLoop size 0 := by
      have := (stepsLoop_spec size 0).2
      simpa using this
    have hjlt : j < stepsLoop size 0 := by
      by_contra hc
      have := Nat.pow_le_pow_right (n := 2) (by decide) (Nat.le_of_not_lt hc)
      omega
    refine ⟨j, ⟨hjlt, fun buf => ?_⟩, ?_⟩
    · rw [groupSizeAt_eq]
      exact sendOf_eq_some _ _ _ (Nat.two_pow_pos j) h1
    · rintro j' ⟨-, hs'⟩
      have h1' : r % (2 ^ j' * 2) = 2 ^ j' := by
        have := hs' []
        rw [groupSizeAt_eq] at this
        rw [← sendOf_isSome_iff _ _ [] (Nat.two_pow_pos j'), this]; rfl
      rcases Nat.lt_trichotomy j j' with hlt | heq | hgt
      · exact absurd h1' (sender_never_again j j' r h1 hlt).2
      · exact heq.symm
      · exact absurd h1 (sender_never_again j' j r h1' hgt).2
  · rw [sendOf_isSome_iff _ _ _ (groupSizeAt_pos j), groupSizeAt_eq]
    exact sender_iff_lowest_bit j r
  · subst h0
    apply sendOf_eq_none
    have := groupSizeAt_pos j
    rw [Nat.zero_mod]
    omega

/-- Witness for C12: rank 6 of 7 sends exactly once. -/
theorem sender_absorbed_witness :
    (6 < 7) ∧ ∃! j, j < stepsLoop 7 0 ∧
      ∀ buf, sendOf (groupSizeAt j) 6 buf = some (6 - groupSizeAt j, buf) :=
  ⟨by decide, (sender_absorbed 7 6 (by decide)).2.1 (by decide)⟩

/-! ## Stability of a pass -/

theorem bucketsUpTo_byte_sorted (shift : Nat) (keys : List Nat) (B : Nat) :
    (bucketsUpTo shift keys B).Pairwise (fun a b => byteAt shift a ≤ byteAt shift b) := by
  induction B with
  | zero => simp [bucketsUpTo]
  | succ B ih =>
    rw [bucketsUpTo, List.pairwise_append]
    refine ⟨ih, ?_, ?_⟩
    · refine List.Pairwise.imp_of_mem ?_
        (List.pairwise_of_forall (R := fun _ _ => True) (fun _ _ => trivial))
      intro a b ha hb _
      rw [List.mem_filter, beq_iff_eq] at ha hb
      omega
    · intro a ha b hb
      rw [mem_bucketsUpTo] at ha
      rw [List.mem_filter, beq_iff_eq] at hb
      omega

theorem filter_bucketsUpTo (shift : Nat) (keys : List Nat) (B b : Nat) :
    (bucketsUpTo shift keys B).filter (fun k => byteAt shift k == b) =
      if b < B then keys.filter (fun k => byteAt shift k == b) else [] := by
  induction B with
  | zero => simp [bucketsUpTo]
  | succ B ih =>
    rw [bucketsUpTo, List.filter_append, ih, List.filter_filter]
    by_cases hb : b = B
    · subst hb
      rw [if_neg (by omega), if_pos (by omega), List.nil_append]
      congr 1
      funext k
      simp
    · have hnil : List.filter (fun k => byteAt shift k == b && byteAt shift k == B) keys = [] := by
        rw [List.filter_eq_nil_iff]
        intro k _
        simp only [Bool.and_eq_true, beq_iff_eq, not_and]
        omega
      rw [hnil, List.append_nil]
      by_cases hlt : b < B
      · rw [if_pos hlt, if_pos (by omega)]
      · rw [if_neg hlt, if_neg (by omega)]

/-- C13: one counting-sort pass, for any shift, writes a permutation of the keys that
is ordered by the byte `(key >> shift) & 0xFF` and in which the keys of each byte
value appear in their input order. -/
theorem radix_pass_stable (shift : Nat) (keys temp : List Nat)
    (ht : temp.length = keys.length) :
    ((radixPass shift (keys, temp)).1).Perm keys ∧
    ((radixPass shift (keys, temp)).1).Pairwise
      (fun a b => (a >>> shift) &&& 0xFF ≤ (b >>> shift) &&& 0xFF) ∧
    ∀ b, ((radixPass shift (keys, temp)).1).filter (fun k => (k >>> shift) &&& 0xFF == b) =
      keys.filter (fun k => (k >>> shift) &&& 0xFF == b) := by
  rw [radixPass_eq shift keys temp ht]
  refine ⟨bucketsUpTo_perm shift keys, bucketsUpTo_byte_sorted shift keys RADIX, fun b => ?_⟩
  have := filter_bucketsUpTo shift keys RADIX b
  by_cases hb : b < RADIX
  · rw [if_pos hb] at this
    exact this
  · rw [if_neg hb] at this
    have hnil : List.filter (fun k => byteAt shift k == b) keys = [] := by
      rw [List.filter_eq_nil_iff]
      intro k _
      have := byteAt_lt shift k
      simp only [beq_iff_eq]
      omega
    exact this.trans hnil.symm

/-- Witness for C13: a pass at shift 8 over four keys keeps `0x0103` before `0x0101`. -/
theorem radix_pass_stable_witness :
    ([0, 0, 0, 0] : List Nat).length = [0x0203, 0x0103, 0x0202, 0x0101].length ∧
    ((radixPass 8 ([0x0203, 0x0103, 0x0202, 0x0101], [0, 0, 0, 0])).1).filter
        (fun k => (k >>> 8) &&& 0xFF == 1) = [0x0103, 0x0101] :=
  ⟨rfl, ((radix_pass_stable 8 [0x0203, 0x0103, 0x0202, 0x0101] [0, 0, 0, 0] rfl).2.2 1).trans
    (by decide)⟩

/-! ## Validation -/

theorem size_t_of_int_natCast (N : Nat) (hN : N < 2 ^ 31) : size_t_of_int (N : Int) = N := by
  unfold size_t_of_int
  omega

theorem countsMismatch_of_entries (n : Int) (c0 c1 o0 : Nat) (ics ocs : List Nat) :
    countsMismatch ⟨n, c0 :: c1 :: ics, o0 :: ocs⟩ =
      some (decide (¬ (c0 = 1 ∧ c1 = size_t_of_int n ∧ o0 = size_t_of_int n))) := by
  unfold countsMismatch
  by_cases h0 : c0 = 1 <;> by_cases h1 : c1 = size_t_of_int n <;>
    by_cases h2 : o0 = size_t_of_int n <;> simp [h0, h1, h2]

theorem sequential_validation_eq (n : Int) (ic oc : List Nat) (hic : 2 ≤ ic.length)
    (hoc : 1 ≤ oc.length) :
    RadixSortSequential.ValidationImpl ⟨n, ic, oc⟩ =
      some (decide (ic.getD 0 0 = 1 ∧ ic.getD 1 0 = size_t_of_int n ∧
        oc.getD 0 0 = size_t_of_int n)) := by
  match ic, oc, hic, hoc with
  | c0 :: c1 :: ics, o0 :: ocs, _, _ =>
    unfold RadixSortSequential.ValidationImpl
    rw [countsMismatch_of_entries]
    by_cases h : c0 = 1 ∧ c1 = size_t_of_int n ∧ o0 = size_t_of_int n
    · simp [h]
    · simp [h]

theorem parallel_validation_eq (task_data : Nat → TaskData) (rank : Nat) :
    RadixSortParallel.ValidationImpl task_data rank =
      RadixSortSequential.ValidationImpl (task_data 0) := by
  unfold RadixSortParallel.ValidationImpl broadcast RadixSortParallel.isValidLocal
    RadixSortSequential.ValidationImpl
  rfl

theorem sequential_validation_out_of_bounds :
    RadixSortSequential.ValidationImpl ⟨0, [1], []⟩ = none ∧
    RadixSortSequential.ValidationImpl ⟨0, [], []⟩ = none ∧
    RadixSortSequential.ValidationImpl ⟨0, [1, 0], []⟩ = none ∧
    RadixSortSequential.ValidationImpl ⟨0, [2], []⟩ = some false := by
  decide

/-- C14: for a count `N >= 0` (an `int`) and task data with at least two entries in
`inputs_count` and one in `outputs_count`, `ValidationImpl` returns, and returns `true`
exactly when `inputs_count[0] = 1`, `inputs_count[1] = N` and `outputs_count[0] = N`;
in the parallel version every rank returns the verdict computed on rank 0 from rank 0's
task data. -/
theorem validation_verdict (N : Nat) (hN : N < 2 ^ 31) (ic oc : List Nat)
    (hic : 2 ≤ ic.length) (hoc : 1 ≤ oc.length) :
    RadixSortSequential.ValidationImpl ⟨(N : Int), ic, oc⟩ =
      some (decide (ic.getD 0 0 = 1 ∧ ic.getD 1 0 = N ∧ oc.getD 0 0 = N)) ∧
    (RadixSortSequential.ValidationImpl ⟨(N : Int), ic, oc⟩ = some true ↔
      ic.getD 0 0 = 1 ∧ ic.getD 1 0 = N ∧ oc.getD 0 0 = N) ∧
    (∀ (task_data : Nat → TaskData) (rank : Nat), task_data 0 = ⟨(N : Int), ic, oc⟩ →
      RadixSortParallel.ValidationImpl task_data rank =
        some (decide (ic.getD 0 0 = 1 ∧ ic.getD 1 0 = N ∧ oc.getD 0 0 = N)) ∧
      RadixSortParallel.ValidationImpl task_data rank =
        RadixSortParallel.ValidationImpl task_data 0) := by
  have hseq : RadixSortSequential.ValidationImpl ⟨(N : Int), ic, oc⟩ =
      some (decide (ic.getD 0 0 = 1 ∧ ic.getD 1 0 = N ∧ oc.getD 0 0 = N)) := by
    rw [sequential_validation_eq (N : Int) ic oc hic hoc]
    simp only [size_t_of_int_natCast N hN]
  refine ⟨hseq, ?_, fun task_data rank h0 => ⟨?_, ?_⟩⟩
  · rw [hseq]
    simp
  · rw [parallel_validation_eq, h0]
    exact hseq
  · rw [parallel_validation_eq, parallel_validation_eq]

/-- Witness for C14: `N = 5` with buffer sizes `[1, 5]` and `[4]` is rejected. -/
theorem validation_verdict_witness :
    (5 < 2 ^ 31) ∧ (2 ≤ [1, 5].length) ∧ (1 ≤ [4].length) ∧
      RadixSortSequential.ValidationImpl ⟨(5 : Nat), [1, 5], [4]⟩ = some false :=
  ⟨by decide, by decide, by decide,
   (validation_verdict 5 (by decide) [1, 5] [4] (by decide) (by decide)).1.trans
     (by decide)⟩

/-! ## Stability of the receiver's merge -/

theorem stdMerge_sublist_left (a b : List Nat) : a.Sublist (stdMerge a b) := by
  induction a, b using stdMerge.induct with
  | case1 l2 => exact List.nil_sublist _
  | case2 x xs => rw [stdMerge]
  | case3 x xs y ys h ih => rw [stdMerge, if_pos h]; exact ih.cons y
  | case4 x xs y ys h ih => rw [stdMerge, if_neg h]; exact ih.cons₂ x

theorem stdMerge_sublist_right (a b : List Nat) : b.Sublist (stdMerge a b) := by
  induction a, b using stdMerge.induct with
  | case1 l2 => rw [stdMerge]
  | case2 x xs => exact List.nil_sublist _
  | case3 x xs y ys h ih => rw [stdMerge, if_pos h]; exact ih.cons₂ y
  | case4 x xs y ys h ih => rw [stdMerge, if_neg h]; exact ih.cons x

theorem doubleValue_lt_of_dlt (x y : Nat) (h : dlt y x = true) :
    doubleValue y < doubleValue x := by
  unfold dlt at h
  simp only [Bool.and_eq_true, decide_eq_true_eq] at h
  exact h.2

theorem doubleValue_le_of_dle (x y : Nat) (h : dle x y = true) :
    doubleValue x ≤ doubleValue y := by
  unfold dle at h
  simp only [Bool.and_eq_true, decide_eq_true_eq] at h
  exact h.2

theorem stdMerge_filter_value (v : Int) (a b : List Nat)
    (sa : a.Pairwise (fun u w => dle u w = true)) :
    (stdMerge a b).filter (fun x => decide (doubleValue x = v)) =
      a.filter (fun x => decide (doubleValue x = v)) ++
        b.filter (fun x => decide (doubleValue x = v)) := by
  induction a, b using stdMerge.induct with
  | case1 l2 => rw [stdMerge]; simp
  | case2 x xs => rw [stdMerge]; simp
  | case3 x xs y ys h ih =>
    rw [stdMerge, if_pos h]
    have hlt := doubleValue_lt_of_dlt x y h
    by_cases hy : doubleValue y = v
    · have hnil : List.filter (fun x => decide (doubleValue x = v)) (x :: xs) = [] := by
        rw [List.filter_eq_nil_iff]
        intro z hz
        simp only [decide_eq_true_eq]
        rcases List.mem_cons.1 hz with rfl | hz'
        · omega
        · have := doubleValue_le_of_dle x z ((List.pairwise_cons.1 sa).1 z hz')
          omega
      rw [List.filter_cons_of_pos (by simpa using hy), ih sa, hnil,
        List.filter_cons_of_pos (by simpa using hy)]
      rfl
    · rw [List.filter_cons_of_neg (by simpa using hy), ih sa,
        List.filter_cons_of_neg (l := ys) (by simpa using hy)]
  | case4 x xs y ys h ih =>
    rw [stdMerge, if_neg h]
    by_cases hx : doubleValue x = v
    · rw [List.filter_cons_of_pos (by simpa using hx), ih (List.pairwise_cons.1 sa).2,
        List.filter_cons_of_pos (l := xs) (by simpa using hx)]
      rfl
    · rw [List.filter_cons_of_neg (by simpa using hx), ih (List.pairwise_cons.1 sa).2,
        List.filter_cons_of_neg (l := xs) (by simpa using hx)]

/-- C18: for two ascending sequences `a` (own buffer) and `b` (partner's data) of
non-NaN doubles the merged buffer is ascending and a permutation of `a` followed by
`b`; it keeps the order within `a` and within `b`; the elements that compare equal to
any given value are those of `a`, in order, followed by those of `b`, in order; and
when the head of `b` is not less than the head of `a` (in particular on a tie) the
head of `a` is taken first. -/
theorem merge_stable (a b : List Nat) (na : ∀ x ∈ a, isNaN x = false)
    (nb : ∀ x ∈ b, isNaN x = false) (sa : a.Pairwise (fun u v => dle u v = true))
    (sb : b.Pairwise (fun u v => dle u v = true)) :
    (stdMerge a b).Pairwise (fun u v => dle u v = true) ∧
    (stdMerge a b).Perm (a ++ b) ∧
    a.Sublist (stdMerge a b) ∧ b.Sublist (stdMerge a b) ∧
    (∀ v : Int, (stdMerge a b).filter (fun x => decide (doubleValue x = v)) =
      a.filter (fun x => decide (doubleValue x = v)) ++
        b.filter (fun x => decide (doubleValue x = v))) ∧
    (∀ x xs y ys, a = x :: xs → b = y :: ys → dlt y x = false →
      stdMerge a b = x :: stdMerge xs b) :=
  ⟨stdMerge_sorted a b na nb sa sb, stdMerge_perm a b, stdMerge_sublist_left a b,
   stdMerge_sublist_right a b, fun v => stdMerge_filter_value v a b sa,
   fun x xs y ys ha hb h => by rw [ha, hb]; exact stdMerge_take_first x y xs ys h⟩

/-- Witness for C18: merging `[+0.0]` (own) with `[-0.0]` (partner), a tie. -/
theorem merge_stable_witness :
    (∀ x ∈ [posZero], isNaN x = false) ∧ (∀ x ∈ [negZero], isNaN x = false) ∧
    stdMerge [posZero] [negZero] = posZero :: stdMerge [] [negZero] :=
  ⟨by decide, by decide,
   (merge_stable [posZero] [negZero] (by decide) (by decide)
      (List.pairwise_singleton _ _) (List.pairwise_singleton _ _)).2.2.2.2.2
      posZero [] negZero [] rfl rfl (by decide)⟩

/-! ## Matching of sends and receives -/

theorem recvFrom_eq_some_iff (size g q p : Nat) :
    recvFrom size g q = some p ↔ q % (g * 2) = 0 ∧ q + g < size ∧ p = q + g := by
  unfold recvFrom
  by_cases h1 : q % (g * 2) = 0 <;> by_cases h2 : q + g < size
  · simp [h1, h2]; exact eq_comm
  · simp [h1, h2]
  · simp [h1, h2]
  · simp [h1, h2]

theorem sender_receiver_mod (g p : Nat) (h : p % (g * 2) = g) :
    g ≤ p ∧ (p - g) % (g * 2) = 0 := by
  have hd := Nat.div_add_mod p (g * 2)
  rw [h] at hd
  have hle : g ≤ p := by omega
  refine ⟨hle, ?_⟩
  have e : p - g = g * 2 * (p / (g * 2)) := by omega
  rw [e, Nat.mul_mod_right]

theorem recv_matches_send (size g p q : Nat) (hg : 0 < g) (hp : p < size) :
    recvFrom size g q = some p ↔ ∀ buf, sendOf g p buf = some (q, buf) := by
  rw [recvFrom_eq_some_iff]
  constructor
  · rintro ⟨h1, -, rfl⟩ buf
    rw [sendOf_eq_some g (q + g) buf hg (partner_mod g q hg h1)]
    simp
  · intro h
    have hs := h []
    have hmod : p % (g * 2) = g := by
      rw [← sendOf_isSome_iff g p [] hg, hs]; rfl
    rw [sendOf_eq_some g p [] hg hmod] at hs
    have hq : p - g = q := by
      have := Option.some.inj hs
      exact congrArg Prod.fst this
    obtain ⟨hle, hm⟩ := sender_receiver_mod g p hmod
    rw [hq] at hm
    exact ⟨hm, by omega, by omega⟩

theorem rankStep_of_recvFrom (size g : Nat) (bufs : List (List Nat)) (q p : Nat) (hg : 0 < g)
    (h : recvFrom size g q = some p) :
    rankStep size g bufs q = some (stdMerge (bufs.getD q []) (bufs.getD p [])) := by
  rw [recvFrom_eq_some_iff] at h
  obtain ⟨h1, h2, rfl⟩ := h
  rw [rankStep_eq size g bufs q hg]
  unfold settledStep
  rw [if_pos h1, if_pos h2]

/-- C19: at the step with group size `group_size` (the value at iteration `j`), rank
`q` is in the receive branch with partner `p` exactly when rank `p` is in the send
branch with receiver `q`; the receive then completes with the buffer of `p`, and no
rank is left waiting in a `recv`. -/
theorem send_recv_matched (size j p q : Nat) (hp : p < size) (hq : q < size) :
    (recvFrom size (groupSizeAt j) q = some p ↔
      ∀ buf, sendOf (groupSizeAt j) p buf = some (q, buf)) ∧
    (recvFrom size (groupSizeAt j) q = some p ↔
      q % (groupSizeAt j * 2) = 0 ∧ p = q + groupSizeAt j ∧ p < size) ∧
    ((∀ buf, sendOf (groupSizeAt j) p buf = some (q, buf)) ↔
      p % (groupSizeAt j * 2) = groupSizeAt j ∧ q = p - groupSizeAt j) ∧
    (∀ bufs, recvFrom size (groupSizeAt j) q = some p →
      rankStep size (groupSizeAt j) bufs q =
        some (stdMerge (bufs.getD q []) (bufs.getD p []))) ∧
    (∀ bufs, (rankStep size (groupSizeAt j) bufs q).isSome = true) := by
  have hg := groupSizeAt_pos j
  refine ⟨recv_matches_send size _ p q hg hp, ?_, ?_,
    fun bufs h => rankStep_of_recvFrom size _ bufs q p hg h, fun bufs => ?_⟩
  · rw [recvFrom_eq_some_iff]
    constructor
    · rintro ⟨h1, h2, h3⟩; exact ⟨h1, h3, hp⟩
    · rintro ⟨h1, h2, h3⟩; exact ⟨h1, by omega, h2⟩
  · constructor
    · intro h
      have hs := h []
      have hmod : p % (groupSizeAt j * 2) = groupSizeAt j := by
        rw [← sendOf_isSome_iff _ p [] hg, hs]; rfl
      rw [sendOf_eq_some _ p [] hg hmod] at hs
      exact ⟨hmod, (congrArg Prod.fst (Option.some.inj hs)).symm⟩
    · rintro ⟨h1, rfl⟩ buf
      exact sendOf_eq_some _ p buf hg h1
  · rw [rankStep_eq size _ bufs q hg]; rfl

/-- Witness for C19: with five ranks, at step 1 rank 0 receives from rank 2. -/
theorem send_recv_matched_witness :
    (2 < 5) ∧ (0 < 5) ∧ recvFrom 5 (groupSizeAt 1) 0 = some 2 ∧
      ∀ buf, sendOf (groupSizeAt 1) 2 buf = some (0, buf) :=
  ⟨by decide, by decide, by decide,
   (send_recv_matched 5 1 2 0 (by decide) (by decide)).1.1 (by decide)⟩

/-! ## Array bounds in `radix_sort_uint64` -/

theorem scatterStep_count (shift : Nat) (count temp temp' : List Nat) (k : Nat) :
    (scatterStep shift (count, temp) k).1 = (scatterStep shift (count, temp') k).1 := rfl

theorem scatterWrites_spec (shift : Nat) (keys : List Nat) :
    ∀ (suf pre count temp : List Nat), pre ++ suf = keys →
      ScatterInv shift keys pre count temp →
      (scatterWrites shift suf count).length = suf.length ∧
      (scatterWrites shift suf count).Nodup ∧
      ∀ w ∈ scatterWrites shift suf count, ∃ b j, b < RADIX ∧
        bucketSize shift pre b ≤ j ∧ j < bucketSize shift keys b ∧
        w = bucketStart shift keys b + j := by
  intro suf
  induction suf with
  | nil =>
    intro pre count temp _ _
    refine ⟨rfl, List.nodup_nil, fun w hw => ?_⟩
    simp [scatterWrites] at hw
  | cons k suf ih =>
    intro pre count temp hk inv
    have hstep := scatterInv_step shift keys pre suf count temp k hk inv
    rw [scatterStep_count shift count temp [] k] at hstep
    obtain ⟨hlen, hnd, hall⟩ := ih (pre ++ [k]) _ _ (by rw [List.append_assoc]; exact hk) hstep
    have hb := byteAt_lt shift k
    have hw : count.getD (byteAt shift k) 0 =
        bucketStart shift keys (byteAt shift k) + bucketSize shift pre (byteAt shift k) :=
      inv.2.2.1 _ hb
    have hone : bucketSize shift [k] (byteAt shift k) = 1 := by
      unfold bucketSize; simp
    have hsz : bucketSize shift keys (byteAt shift k) =
        bucketSize shift pre (byteAt shift k) +
          (bucketSize shift [k] (byteAt shift k) + bucketSize shift suf (byteAt shift k)) := by
      rw [← hk, bucketSize_append]
      congr 1
      exact bucketSize_append shift [k] suf _
    have hmono : ∀ b, bucketSize shift pre b ≤ bucketSize shift (pre ++ [k]) b := by
      intro b; rw [bucketSize_append]; omega
    rw [scatterWrites]
    refine ⟨by rw [List.length_cons, hlen, List.length_cons], ?_, ?_⟩
    · rw [List.nodup_cons]
      refine ⟨fun hmem => ?_, hnd⟩
      obtain ⟨b, j, hbR, hj1, hj2, hwj⟩ := hall _ hmem
      rw [hw] at hwj
      by_cases hbb : byteAt shift k = b
      · subst hbb
        rw [bucketSize_append, hone] at hj1
        omega
      · exact bucket_slot_ne shift keys (byteAt shift k) b _ j hbb (by omega) hj2 hwj
    · intro w hwm
      rcases List.mem_cons.1 hwm with rfl | hwm'
      · exact ⟨byteAt shift k, bucketSize shift pre (byteAt shift k), hb, le_refl _,
          by omega, hw⟩
      · obtain ⟨b, j, hbR, hj1, hj2, hwj⟩ := hall w hwm'
        exact ⟨b, j, hbR, le_trans (hmono b) hj1, hj2, hwj⟩

theorem scatterInv_init (shift : Nat) (keys temp : List Nat) (ht : temp.length = keys.length) :
    ScatterInv shift keys []
      (prefixLoop (countLoop shift keys (List.replicate (RADIX + 1) 0))) temp := by
  obtain ⟨hl, hg⟩ := prefix_count_spec shift keys
  refine ⟨hl, ht, fun b hb => ?_, fun b j _ hj => ?_⟩
  · rw [hg b (by omega)]; simp [bucketSize]
  · simp [bucketSize] at hj

theorem scatterWrites_bounds (shift : Nat) (keys : List Nat) :
    (scatterWrites shift keys
      (prefixLoop (countLoop shift keys (List.replicate (RADIX + 1) 0)))).length
        = keys.length ∧
    (scatterWrites shift keys
      (prefixLoop (countLoop shift keys (List.replicate (RADIX + 1) 0)))).Nodup ∧
    ∀ w ∈ scatterWrites shift keys
      (prefixLoop (countLoop shift keys (List.replicate (RADIX + 1) 0))), w < keys.length := by
  obtain ⟨h1, h2, h3⟩ := scatterWrites_spec shift keys keys [] _ (List.replicate keys.length 0)
    rfl (scatterInv_init shift keys _ (by simp))
  refine ⟨h1, h2, fun w hw => ?_⟩
  obtain ⟨b, j, hb, -, hj, rfl⟩ := h3 w hw
  have e1 := bucket_slot_lt shift keys b j hj
  have e2 := bucketStart_mono shift keys (b + 1) RADIX (by omega)
  rw [bucketStart_RADIX] at e2
  omega

theorem scatterWrites_perm_range (shift : Nat) (keys : List Nat) :
    (scatterWrites shift keys
      (prefixLoop (countLoop shift keys (List.replicate (RADIX + 1) 0)))).Perm
        (List.range keys.length) := by
  obtain ⟨h1, h2, h3⟩ := scatterWrites_bounds shift keys
  refine (List.subperm_of_subset h2 ?_).perm_of_length_le ?_
  · intro w hw
    exact List.mem_range.2 (h3 w hw)
  · rw [List.length_range, h1]

theorem passes_lengths (keys : List Nat) (m : Nat) :
    (((List.range m).foldl (fun st i => radixPass (8 * i) st)
        (keys, List.replicate keys.length 0)).1).length = keys.length ∧
    (((List.range m).foldl (fun st i => radixPass (8 * i) st)
        (keys, List.replicate keys.length 0)).2).length = keys.length :=
  ⟨(passes_spec keys m).1.length_eq, (passes_spec keys m).2.1⟩

theorem scatterLoop_eq_writes (shift : Nat) (keys : List Nat) :
    ∀ (count temp : List Nat),
      (scatterLoop shift keys count temp).2 =
        ((scatterWrites shift keys count).zip keys).foldl (fun t wk => t.set wk.1 wk.2) temp := by
  induction keys with
  | nil => intro count temp; rfl
  | cons k ks ih =>
    intro count temp
    have := ih (scatterStep shift (count, temp) k).1 (scatterStep shift (count, temp) k).2
    unfold scatterLoop at this ⊢
    rw [List.foldl_cons, this, scatterWrites, List.zip_cons_cons, List.foldl_cons]
    rfl

theorem radixPass_temp_irrelevant (shift : Nat) (keys temp temp' : List Nat)
    (ht : temp.length = keys.length) (ht' : temp'.length = keys.length) :
    (radixPass shift (keys, temp)).1 = (radixPass shift (keys, temp')).1 := by
  rw [radixPass_eq shift keys temp ht, radixPass_eq shift keys temp' ht']

/-- C20: in a pass over `n` keys every histogram index `byte + 1` lies in `[1, 256]`
(the array `count` has `257` entries), every index at which the scatter loop writes
into `temp` is below `n`, the `n` write indices are pairwise distinct, so they are
exactly the slots `0 .. n-1`, each written once, and the content of `temp` before the
pass does not reach the result; `keys_` and `temp` keep the size `n` through all
`BITS / 8` passes. -/
theorem radix_sort_accesses_in_bounds (shift : Nat) (keys temp : List Nat)
    (ht : temp.length = keys.length) :
    (∀ k ∈ keys, 1 ≤ byteAt shift k + 1 ∧ byteAt shift k + 1 ≤ 256 ∧
      byteAt shift k + 1 < (List.replicate (RADIX + 1) 0).length) ∧
    (countLoop shift keys (List.replicate (RADIX + 1) 0)).length = 257 ∧
    (prefixLoop (countLoop shift keys (List.replicate (RADIX + 1) 0))).length = 257 ∧
    (∀ w ∈ scatterWrites shift keys
        (prefixLoop (countLoop shift keys (List.replicate (RADIX + 1) 0))),
      w < temp.length) ∧
    (scatterWrites shift keys
      (prefixLoop (countLoop shift keys (List.replicate (RADIX + 1) 0)))).Nodup ∧
    (scatterWrites shift keys
      (prefixLoop (countLoop shift keys (List.replicate (RADIX + 1) 0)))).Perm
        (List.range keys.length) ∧
    (radixPass shift (keys, temp)).1 =
      ((scatterWrites shift keys
          (prefixLoop (countLoop shift keys (List.replicate (RADIX + 1) 0)))).zip keys).foldl
        (fun t wk => t.set wk.1 wk.2) temp ∧
    (∀ temp', temp'.length = keys.length →
      (radixPass shift (keys, temp')).1 = (radixPass shift (keys, temp)).1) ∧
    (∀ m, m ≤ BITS / 8 →
      (((List.range m).foldl (fun st i => radixPass (8 * i) st)
          (keys, List.replicate keys.length 0)).1).length = keys.length ∧
      (((List.range m).foldl (fun st i => radixPass (8 * i) st)
          (keys, List.replicate keys.length 0)).2).length = keys.length) := by
  obtain ⟨-, h2, h3⟩ := scatterWrites_bounds shift keys
  refine ⟨fun k _ => ?_, ?_, (prefix_count_spec shift keys).1, fun w hw => ?_, h2,
    scatterWrites_perm_range shift keys, ?_,
    fun temp' ht' => radixPass_temp_irrelevant shift keys temp' temp ht' ht,
    fun m _ => passes_lengths keys m⟩
  · have := byteAt_lt shift k
    unfold RADIX at this
    simp only [List.length_replicate, RADIX]
    omega
  · exact (countLoop_spec shift keys _ (by simp)).1
  · rw [ht]; exact h3 w hw
  · unfold radixPass
    exact scatterLoop_eq_writes shift keys _ temp

/-- Witness for C20: the pass at shift 0 over `[0x0203, 0x0101, 0x0202]` writes at the
indices `2, 0, 1`. -/
theorem radix_sort_accesses_in_bounds_witness :
    ([0, 0, 0] : List Nat).length = [0x0203, 0x0101, 0x0202].length ∧
    (scatterWrites 0 [0x0203, 0x0101, 0x0202]
      (prefixLoop (countLoop 0 [0x0203, 0x0101, 0x0202]
        (List.replicate (RADIX + 1) 0)))).Nodup :=
  ⟨rfl, (radix_sort_accesses_in_bounds 0 [0x0203, 0x0101, 0x0202] [0, 0, 0] rfl).2.2.2.2.1⟩

/-! ## Buffers after each merge step, for every input -/

theorem dlt_asymm (x y : Nat) (h : dlt y x = true) : dlt x y = false := by
  have h1 := doubleValue_lt_of_dlt x y h
  unfold dlt
  have : ¬ doubleValue x < doubleValue y := by omega
  simp [this]

theorem stdMerge_chain (a b : List Nat) :
    ∀ z, List.Chain (fun u v => dlt v u = false) z a →
      List.Chain (fun u v => dlt v u = false) z b →
      List.Chain (fun u v => dlt v u = false) z (stdMerge a b) := by
  induction a, b using stdMerge.induct with
  | case1 l2 => intro z _ hb; rw [stdMerge]; exact hb
  | case2 x xs => intro z ha _; rw [stdMerge]; exact ha
  | case3 x xs y ys h ih =>
    intro z ha hb
    rw [stdMerge, if_pos h]
    rw [List.chain_cons] at ha hb
    exact List.Chain.cons hb.1
      (ih y (List.Chain.cons (dlt_asymm x y h) ha.2) hb.2)
  | case4 x xs y ys h ih =>
    intro z ha hb
    rw [stdMerge, if_neg h]
    rw [List.chain_cons] at ha hb
    exact List.Chain.cons ha.1
      (ih x ha.2 (List.Chain.cons (by simpa using h) hb.2))

theorem stdMerge_chain' (a b : List Nat)
    (ha : a.Chain' (fun u v => dlt v u = false))
    (hb : b.Chain' (fun u v => dlt v u = false)) :
    (stdMerge a b).Chain' (fun u v => dlt v u = false) := by
  cases a with
  | nil => rw [stdMerge_nil_left]; exact hb
  | cons x xs =>
    cases b with
    | nil => rw [stdMerge_nil_right]; exact ha
    | cons y ys =>
      by_cases h : dlt y x = true
      · rw [stdMerge_take_second x y xs ys h]
        exact stdMerge_chain (x :: xs) ys y (List.Chain.cons (dlt_asymm x y h) ha) hb
      · have h' : dlt y x = false := by simpa using h
        rw [stdMerge_take_first x y xs ys h']
        exact stdMerge_chain xs (y :: ys) x ha (List.Chain.cons h' hb)

theorem not_dlt_of_encode_le (u v : Nat) (hu : u < 2 ^ 64) (hv : v < 2 ^ 64)
    (h : encode u ≤ encode v) : dlt v u = false := by
  by_contra hc
  have ht : dlt v u = true := by simpa using hc
  have := encode_lt_of_doubleValue_lt v u hv hu (doubleValue_lt_of_dlt u v ht)
  omega

theorem radix_sort_doubles_no_descent (data : List Nat) (h : ∀ x ∈ data, x < 2 ^ 64) :
    (radix_sort_doubles data).Pairwise (fun u v => dlt v u = false) := by
  refine List.Pairwise.imp_of_mem ?_ (radix_sort_doubles_key_sorted data h)
  intro a b ha hb hab
  rw [(radix_sort_doubles_perm data h).mem_iff] at ha hb
  exact not_dlt_of_encode_le a b (h a ha) (h b hb) hab

theorem add_mod_double (g r : Nat) (hg : 0 < g) :
    (g + r) % (g * 2) = g ↔ r % (g * 2) = 0 := by
  constructor
  · intro h
    rw [Nat.add_mod] at h
    have hx : r % (g * 2) < g * 2 := Nat.mod_lt _ (by omega)
    have hgg : g % (g * 2) = g := Nat.mod_eq_of_lt (by omega)
    rw [hgg] at h
    generalize r % (g * 2) = x at h hx
    by_cases hlt : g + x < g * 2
    · rw [Nat.mod_eq_of_lt hlt] at h; omega
    · rw [Nat.mod_eq_sub_mod (by omega), Nat.mod_eq_of_lt (by omega)] at h
      omega
  · intro h
    rw [Nat.add_comm]
    exact partner_mod g r hg h

theorem idle_not_multiple (g r : Nat) (hg : 0 < g) (h1 : r % (g * 2) ≠ 0)
    (h2 : r % (g * 2) ≠ g) : r % g ≠ 0 := by
  intro h0
  have hm := Nat.mod_mul_right_mod r g 2
  rw [h0] at hm
  have hx : r % (g * 2) < g * 2 := Nat.mod_lt _ (by omega)
  generalize r % (g * 2) = x at h1 h2 hm hx
  by_cases hlt : x < g
  · rw [Nat.mod_eq_of_lt hlt] at hm; omega
  · rw [Nat.mod_eq_sub_mod (by omega), Nat.mod_eq_of_lt (by omega)] at hm
    omega

theorem tree_sum (f : Nat → Nat) (g size : Nat) (hg : 0 < g)
    (hf : ∀ r, size ≤ r → f r = 0) :
    (Finset.range size).sum
        (fun r => if r % (g * 2) = 0 then f r + f (r + g)
          else if r % (g * 2) = g then 0 else f r) =
      (Finset.range size).sum f := by
  have hB : (Finset.range size).sum (fun r => if r % (g * 2) = 0 then f (r + g) else 0) =
      (Finset.range size).sum (fun r => if r % (g * 2) = g then f r else 0) := by
    have e1 : (Finset.range (g + size)).sum (fun r => if r % (g * 2) = g then f r else 0) =
        (Finset.range size).sum (fun r => if r % (g * 2) = 0 then f (r + g) else 0) := by
      rw [Finset.sum_range_add]
      have hz : (Finset.range g).sum (fun r => if r % (g * 2) = g then f r else 0) = 0 := by
        apply Finset.sum_eq_zero
        intro r hr
        rw [Finset.mem_range] at hr
        rw [Nat.mod_eq_of_lt (by omega), if_neg (by omega)]
      rw [hz, Nat.zero_add]
      apply Finset.sum_congr rfl
      intro r _
      by_cases h0 : r % (g * 2) = 0
      · rw [if_pos ((add_mod_double g r hg).2 h0), if_pos h0, Nat.add_comm]
      · rw [if_neg (fun h => h0 ((add_mod_double g r hg).1 h)), if_neg h0]
    have e2 : (Finset.range (size + g)).sum (fun r => if r % (g * 2) = g then f r else 0) =
        (Finset.range size).sum (fun r => if r % (g * 2) = g then f r else 0) := by
      rw [Finset.sum_range_add]
      have hz : (Finset.range g).sum
          (fun x => if (size + x) % (g * 2) = g then f (size + x) else 0) = 0 := by
        apply Finset.sum_eq_zero
        intro r _
        rw [hf (size + r) (by omega)]
        split <;> rfl
      rw [hz, Nat.add_zero]
    rw [← e1, Nat.add_comm g size, e2]
  have hsplit : ∀ r, (if r % (g * 2) = 0 then f r + f (r + g)
      else if r % (g * 2) = g then 0 else f r) =
      (if r % (g * 2) = g then 0 else f r) + (if r % (g * 2) = 0 then f (r + g) else 0) := by
    intro r
    by_cases h0 : r % (g * 2) = 0
    · rw [if_pos h0, if_pos h0, if_neg (by omega)]
    · rw [if_neg h0, if_neg h0, Nat.add_zero]
  have hsplit2 : ∀ r, f r =
      (if r % (g * 2) = g then 0 else f r) + (if r % (g * 2) = g then f r else 0) := by
    intro r
    by_cases h0 : r % (g * 2) = g
    · rw [if_pos h0, if_pos h0, Nat.zero_add]
    · rw [if_neg h0, if_neg h0, Nat.add_zero]
  rw [Finset.sum_congr rfl (fun r _ => hsplit r), Finset.sum_add_distrib, hB,
    ← Finset.sum_add_distrib]
  exact Finset.sum_congr rfl (fun r _ => (hsplit2 r).symm)

theorem eq_map_range_getD (l : List (List Nat)) :
    l = (List.range l.length).map (fun i => l.getD i []) := by
  apply List.ext_getElem?
  intro i
  rw [List.getElem?_map]
  rcases Nat.lt_or_ge i l.length with hlt | hge
  · rw [List.getElem?_range hlt, List.getElem?_eq_getElem hlt]
    simp [List.getD_eq_getElem?_getD, List.getElem?_eq_getElem hlt]
  · rw [List.getElem?_eq_none hge, List.getElem?_eq_none (by rw [List.length_range]; exact hge)]
    rfl

theorem getD_of_length_le (l : List (List Nat)) (i : Nat) (h : l.length ≤ i) :
    l.getD i [] = [] := by
  rw [List.getD_eq_getElem?_getD, List.getElem?_eq_none h]
  rfl

theorem count_settledStep (a size g : Nat) (bufs : List (List Nat)) (hl : bufs.length = size)
    (r : Nat) :
    (settledStep size g bufs r).count a =
      if r % (g * 2) = 0 then (bufs.getD r []).count a + (bufs.getD (r + g) []).count a
      else if r % (g * 2) = g then 0 else (bufs.getD r []).count a := by
  unfold settledStep
  by_cases h0 : r % (g * 2) = 0
  · rw [if_pos h0, if_pos h0]
    by_cases hp : r + g < size
    · rw [if_pos hp, (stdMerge_perm _ _).count_eq, List.count_append]
    · rw [if_neg hp, getD_of_length_le bufs (r + g) (by omega)]
      simp
  · rw [if_neg h0, if_neg h0]
    by_cases hs : r % (g * 2) = g
    · rw [if_pos hs, if_pos hs]; simp
    · rw [if_neg hs, if_neg hs]

theorem settledStep_flatten_perm (size g : Nat) (bufs : List (List Nat)) (hg : 0 < g)
    (hl : bufs.length = size) :
    (((List.range size).map (settledStep size g bufs)).flatten).Perm bufs.flatten := by
  rw [List.perm_iff_count]
  intro a
  have hf : ∀ r, size ≤ r → (bufs.getD r []).count a = 0 := by
    intro r hr
    rw [getD_of_length_le bufs r (by omega)]
    simp
  have hsum := tree_sum (fun r => (bufs.getD r []).count a) g size hg hf
  have hrhs : bufs.flatten.count a =
      (Finset.range size).sum (fun r => (bufs.getD r []).count a) := by
    conv_lhs => rw [eq_map_range_getD bufs]
    rw [List.count_flatten, List.map_map, hl]
    rfl
  have hlhs : (((List.range size).map (settledStep size g bufs)).flatten).count a =
      (Finset.range size).sum
        (fun r => if r % (g * 2) = 0 then
            (bufs.getD r []).count a + (bufs.getD (r + g) []).count a
          else if r % (g * 2) = g then 0 else (bufs.getD r []).count a) := by
    rw [List.count_flatten, List.map_map]
    have : (List.count a ∘ settledStep size g bufs) =
        (fun r => if r % (g * 2) = 0 then
            (bufs.getD r []).count a + (bufs.getD (r + g) []).count a
          else if r % (g * 2) = g then 0 else (bufs.getD r []).count a) := by
      funext r
      exact count_settledStep a size g bufs hl r
    rw [this]
    rfl
  rw [hlhs, hrhs]
  exact hsum

theorem treeInv_step (size : Nat) (chunks bufs : List (List Nat)) (g : Nat) (hg : 0 < g)
    (hc : chunks.length = size) (inv : TreeInv size chunks g bufs) :
    TreeInv size chunks (g * 2) ((List.range size).map (settledStep size g bufs)) := by
  obtain ⟨hlen, hinv⟩ := inv
  refine ⟨by simp, fun r hr => ⟨fun hmod => ?_, fun hmod => ?_⟩⟩
  · rw [getD_map_range _ _ size r hr]
    have hmodg : r % g = 0 := by
      have := Nat.mod_mul_right_mod r g 2
      rw [hmod] at this
      simpa using this.symm
    unfold settledStep
    rw [if_pos hmod]
    by_cases hp : r + g < size
    · rw [if_pos hp]
      have hmodp : (r + g) % g = 0 := by
        rw [Nat.add_mod, hmodg, Nat.mod_self]; simp
      obtain ⟨p1, s1⟩ := (hinv r hr).1 hmodg
      obtain ⟨p2, s2⟩ := (hinv (r + g) hp).1 hmodp
      refine ⟨?_, stdMerge_chain' _ _ s1 s2⟩
      rw [span_double]
      exact (stdMerge_perm _ _).trans (p1.append p2)
    · rw [if_neg hp, span_saturated chunks r g (by omega)]
      exact (hinv r hr).1 hmodg
  · rw [getD_map_range _ _ size r hr]
    unfold settledStep
    rw [if_neg hmod]
    by_cases hs : r % (g * 2) = g
    · rw [if_pos hs]
    · rw [if_neg hs]
      exact (hinv r hr).2 (idle_not_multiple g r hg hmod hs)

theorem treeLoop_spec (size : Nat) (chunks : List (List Nat)) (hc : chunks.length = size)
    (steps : Nat) :
    ∀ (g : Nat) (bufs : List (List Nat)), 0 < g → TreeInv size chunks g bufs →
      bufs.flatten.Perm chunks.flatten →
      ∃ bufs', mergeLoop size steps g bufs = some bufs' ∧
        TreeInv size chunks (g * 2 ^ steps) bufs' ∧ bufs'.flatten.Perm chunks.flatten := by
  induction steps with
  | zero =>
    intro g bufs _ inv hp
    exact ⟨bufs, rfl, by simpa using inv, hp⟩
  | succ steps ih =>
    intro g bufs hg inv hp
    obtain ⟨bufs', h1, h2, h3⟩ := ih (g * 2) _ (by omega)
      (treeInv_step size chunks bufs g hg hc inv)
      ((settledStep_flatten_perm size g bufs hg inv.1).trans hp)
    refine ⟨bufs', ?_, ?_, h3⟩
    · rw [mergeLoop, mergeStep_eq size g bufs hg]
      exact h1
    · have : g * 2 ^ (steps + 1) = g * 2 * 2 ^ steps := by rw [pow_succ]; ring
      rw [this]
      exact h2

theorem localSorted_eq_map (size : Nat) (data : List Nat) :
    localSorted size data = (rawChunks size data).map radix_sort_doubles := by
  unfold localSorted rawChunks
  simp only [List.map_map, Function.comp_def]

theorem mem_rawChunks (size : Nat) (data : List Nat) (c : List Nat)
    (hc : c ∈ rawChunks size data) (x : Nat) (hx : x ∈ c) : x ∈ data := by
  unfold rawChunks at hc
  rw [List.mem_map] at hc
  obtain ⟨r, -, rfl⟩ := hc
  exact mem_scatterv _ _ _ _ x hx

theorem rawChunks_flatten_take (size : Nat) (data : List Nat) (m : Nat) (hm : m ≤ size) :
    ((List.range m).map
      (scatterv data (counts data.length size)
        (displs size (counts data.length size)))).flatten =
      data.take (((counts data.length size).take m).sum) := by
  induction m with
  | zero => simp
  | succ m ih =>
    rw [List.range_succ, List.map_append, List.flatten_append, sum_take_succ, List.take_add,
      ih (by omega)]
    congr 1
    simp only [List.map_cons, List.map_nil, List.flatten_cons, List.flatten_nil,
      List.append_nil]
    unfold scatterv
    rw [getD_displs size _ m (by omega)]

theorem rawChunks_flatten (size : Nat) (data : List Nat) (hs : 1 ≤ size) :
    (rawChunks size data).flatten = data := by
  have h := rawChunks_flatten_take size data size (le_refl _)
  rw [List.take_of_length_le (l := counts data.length size) (by rw [length_counts]),
    sum_counts data.length size hs, List.take_of_length_le (le_refl _)] at h
  exact h

theorem map_sort_flatten_perm (L : List (List Nat))
    (hL : ∀ c ∈ L, ∀ x ∈ c, x < 2 ^ 64) :
    ((L.map radix_sort_doubles).flatten).Perm L.flatten := by
  induction L with
  | nil => exact List.Perm.refl _
  | cons c L ih =>
    rw [List.map_cons, List.flatten_cons, List.flatten_cons]
    exact (radix_sort_doubles_perm c (hL c (List.mem_cons_self _ _))).append
      (ih (fun c' hc' => hL c' (List.mem_cons_of_mem _ hc')))

theorem span_sorted_perm_raw (size : Nat) (data : List Nat) (hb : ∀ x ∈ data, x < 2 ^ 64)
    (r g : Nat) :
    ((((localSorted size data).drop r).take g).flatten).Perm
      (((rawChunks size data).drop r).take g).flatten := by
  rw [localSorted_eq_map, ← List.map_drop, ← List.map_take]
  apply map_sort_flatten_perm
  intro c hc x hx
  exact hb x (mem_rawChunks size data c
    (List.mem_of_mem_drop (List.mem_of_mem_take hc)) x hx)

theorem treeInv_init (size : Nat) (data : List Nat) (hb : ∀ x ∈ data, x < 2 ^ 64) :
    TreeInv size (localSorted size data) 1 (localSorted size data) := by
  refine ⟨length_localSorted size data, fun r hr => ⟨fun _ => ?_, fun h => ?_⟩⟩
  · rw [span_one]
    refine ⟨List.Perm.refl _, ?_⟩
    have hget : (localSorted size data).getD r [] =
        radix_sort_doubles (scatterv data (counts data.length size)
          (displs size (counts data.length size)) r) := by
      unfold localSorted
      rw [getD_map_range _ _ size r hr]
    have hch := radix_sort_doubles_no_descent
      (scatterv data (counts data.length size) (displs size (counts data.length size)) r)
      (fun y hy => hb y (mem_scatterv _ _ _ _ y hy))
    rw [← hget] at hch
    exact List.Pairwise.chain' hch
  · exact absurd (Nat.mod_one r) h

theorem tree_state (size : Nat) (data : List Nat) (hs : 1 ≤ size)
    (hb : ∀ x ∈ data, x < 2 ^ 64) (k : Nat) :
    ∃ bufs, mergeLoop size k 1 (localSorted size data) = some bufs ∧
      TreeInv size (localSorted size data) (groupSizeAt k) bufs ∧ bufs.flatten.Perm data := by
  obtain ⟨bufs, h1, h2, h3⟩ := treeLoop_spec size (localSorted size data)
    (length_localSorted size data) k 1 (localSorted size data) (by decide)
    (treeInv_init size data hb) (List.Perm.refl _)
  refine ⟨bufs, h1, ?_, h3.trans (localSorted_flatten size data hs hb)⟩
  rw [groupSizeAt_eq]
  simpa using h2

theorem sorted_state (size : Nat) (data : List Nat) (hb : ∀ x ∈ data, x < 2 ^ 64)
    (hn : ∀ x ∈ data, isNaN x = false) (k : Nat) (bufs : List (List Nat))
    (hrun : mergeLoop size k 1 (localSorted size data) = some bufs) (r : Nat) (hr : r < size)
    (hmod : r % groupSizeAt k = 0) :
    (bufs.getD r []).Pairwise (fun u v => dle u v = true) := by
  have hnc : ∀ c ∈ localSorted size data, ∀ x ∈ c, isNaN x = false :=
    fun c hc x hx => hn x (mem_localSorted size data hb c hc x hx)
  obtain ⟨bufs', hrun', -, hinv⟩ := mergeLoop_spec size (localSorted size data)
    (length_localSorted size data) hnc k 1 (localSorted size data)
    (by decide) (mergeInv_init size data hb hn)
  rw [hrun] at hrun'
  have hbb : bufs = bufs' := Option.some.inj hrun'
  subst hbb
  rw [groupSizeAt_eq] at hmod
  exact (hinv r hr (by simpa using hmod)).2

theorem merger_without_partner (size g : Nat) (bufs : List (List Nat)) (r : Nat) (hg : 0 < g)
    (hm : r % (g * 2) = 0) (hp : size ≤ r + g) :
    rankStep size g bufs r = some (bufs.getD r []) := by
  rw [rankStep_eq size g bufs r hg]
  unfold settledStep
  rw [if_pos hm, if_neg (by omega)]

theorem idle_rank_step (size g : Nat) (bufs : List (List Nat)) (r : Nat) (hg : 0 < g)
    (h1 : r % (g * 2) ≠ 0) (h2 : r % (g * 2) ≠ g) :
    rankStep size g bufs r = some (bufs.getD r []) := by
  rw [rankStep_eq size g bufs r hg]
  unfold settledStep
  rw [if_neg h1, if_neg h2]

theorem idle_was_sender (k r : Nat) (h1 : r % (groupSizeAt k * 2) ≠ 0)
    (h2 : r % (groupSizeAt k * 2) ≠ groupSizeAt k) :
    ∃ j, j < k ∧ r % (groupSizeAt j * 2) = groupSizeAt j := by
  have hnm := idle_not_multiple (groupSizeAt k) r (groupSizeAt_pos k) h1 h2
  have hpos : 0 < r := by
    rcases Nat.eq_zero_or_pos r with h0 | hp
    · subst h0; simp at hnm
    · exact hp
  obtain ⟨j, hj, -⟩ := sender_step_exists r hpos
  refine ⟨j, ?_, by rw [groupSizeAt_eq]; exact hj⟩
  by_contra hc
  have hd : 2 ^ k ∣ 2 ^ j := Nat.pow_dvd_pow 2 (Nat.le_of_not_lt hc)
  have hdr : 2 ^ j ∣ r := ((sender_iff_lowest_bit j r).1 hj).1
  rw [groupSizeAt_eq] at hnm
  exact hnm (Nat.mod_eq_zero_of_dvd (dvd_trans hd hdr))

/-! ## Claims about the buffers during the merge loop -/

/-- C15: after `scatterv` the buffers of the `size` ranks, one after the other, are the
input itself; after the local sorts, and after any number `k` of steps of the merge
loop, all ranks return and the buffers together hold exactly the elements of the
input, each as often as the input does. -/
theorem buffers_hold_input (size : Nat) (data : List Nat) (hs : 1 ≤ size)
    (hb : ∀ x ∈ data, x < 2 ^ 64) :
    (rawChunks size data).length = size ∧
    (rawChunks size data).flatten = data ∧
    ((localSorted size data).flatten).Perm data ∧
    ∀ k, ∃ bufs, mergeLoop size k 1 (localSorted size data) = some bufs ∧
      bufs.length = size ∧ bufs.flatten.Perm data := by
  refine ⟨by simp [rawChunks], rawChunks_flatten size data hs,
    localSorted_flatten size data hs hb, fun k => ?_⟩
  obtain ⟨bufs, h1, h2, h3⟩ := tree_state size data hs hb k
  exact ⟨bufs, h1, h2.1, h3⟩

/-- Witness for C15 with three ranks and five elements. -/
theorem buffers_hold_input_witness :
    (1 ≤ 3) ∧
    (∀ x ∈ [0x4000000000000000, 0x7FF8000000000000, 0, 0x8000000000000000,
      0x3FF0000000000000], x < 2 ^ 64) ∧
    ∃ bufs, mergeLoop 3 2 1 (localSorted 3 [0x4000000000000000, 0x7FF8000000000000, 0,
        0x8000000000000000, 0x3FF0000000000000]) = some bufs ∧
      bufs.flatten.Perm [0x4000000000000000, 0x7FF8000000000000, 0,
        0x8000000000000000, 0x3FF0000000000000] :=
  ⟨by decide, by decide,
   ((buffers_hold_input 3 [0x4000000000000000, 0x7FF8000000000000, 0,
      0x8000000000000000, 0x3FF0000000000000] (by decide) (by decide)).2.2.2 2).imp
     (fun _ h => ⟨h.1, h.2.2⟩)⟩

theorem mergeLoop_two_ranks (bufs : List (List Nat)) :
    mergeLoop 2 1 1 bufs = some [stdMerge (bufs.getD 0 []) (bufs.getD 1 []), []] := by
  rw [mergeLoop, mergeStep_eq 2 1 bufs (by decide)]
  simp only [mergeLoop]
  rfl

theorem nanExample_localSorted :
    localSorted 2 nanExampleInput =
      [[0xFFF8000000000000, 0x3FF0000000000000],
       [0xFFF8000000000000, 0x3FE0000000000000]] := by
  have h0 : scatterv nanExampleInput (counts nanExampleInput.length 2)
      (displs 2 (counts nanExampleInput.length 2)) 0 =
      [0xFFF8000000000000, 0x3FF0000000000000] := by decide
  have h1 : scatterv nanExampleInput (counts nanExampleInput.length 2)
      (displs 2 (counts nanExampleInput.length 2)) 1 =
      [0xFFF8000000000000, 0x3FE0000000000000] := by decide
  rw [localSorted_two, h0, h1,
    radix_sort_doubles_unique [0xFFF8000000000000, 0x3FF0000000000000]
      [0xFFF8000000000000, 0x3FF0000000000000] (by decide) (List.Perm.refl _) (by decide),
    radix_sort_doubles_unique [0xFFF8000000000000, 0x3FE0000000000000]
      [0xFFF8000000000000, 0x3FE0000000000000] (by decide) (List.Perm.refl _) (by decide)]

set_option exponentiation.threshold 2100 in
theorem nanExample_after_step :
    mergeLoop 2 1 1 (localSorted 2 nanExampleInput) =
      some [[0xFFF8000000000000, 0x3FF0000000000000, 0xFFF8000000000000,
              0x3FE0000000000000], []] := by
  rw [mergeLoop_two_ranks, nanExample_localSorted]
  simp only [List.getD_cons_zero, List.getD_cons_succ]
  rw [stdMerge_take_first _ _ _ _ (by decide), stdMerge_take_first _ _ _ _ (by decide),
    stdMerge_nil_left]

/-- C16, as amended: after `k` steps of the merge loop (at the start of the step with
`group_size = groupSizeAt k`, or after the last step) every rank that is a multiple of
`group_size` holds exactly the elements of the original chunks of the ranks
`rank .. min (rank + group_size, size) - 1`; for an input without NaN this buffer is
ascending under `<=`, for any input no element of it is directly followed by a smaller
one; a merger without a partner leaves the step with its buffer unchanged. -/
theorem subtree_merged (size : Nat) (data : List Nat) (hs : 1 ≤ size)
    (hb : ∀ x ∈ data, x < 2 ^ 64) (k : Nat) :
    ∃ bufs, mergeLoop size k 1 (localSorted size data) = some bufs ∧
      ∀ r, r < size → r % groupSizeAt k = 0 →
        (bufs.getD r []).Perm
          (((rawChunks size data).drop r).take (groupSizeAt k)).flatten ∧
        (bufs.getD r []).Chain' (fun u v => dlt v u = false) ∧
        ((∀ x ∈ data, isNaN x = false) →
          (bufs.getD r []).Pairwise (fun u v => dle u v = true)) ∧
        (r % (groupSizeAt k * 2) = 0 → size ≤ r + groupSizeAt k →
          rankStep size (groupSizeAt k) bufs r = some (bufs.getD r [])) := by
  obtain ⟨bufs, h1, h2, -⟩ := tree_state size data hs hb k
  refine ⟨bufs, h1, fun r hr hmod => ?_⟩
  obtain ⟨hp, hc⟩ := (h2.2 r hr).1 hmod
  exact ⟨hp.trans (span_sorted_perm_raw size data hb r (groupSizeAt k)), hc,
    fun hn => sorted_state size data hb hn k bufs h1 r hr hmod,
    fun hm hpart => merger_without_partner size _ bufs r (groupSizeAt_pos k) hm hpart⟩

/-- Witness for C16 with five ranks, after one step: rank 4 is a merger without
partner. -/
theorem subtree_merged_witness :
    (1 ≤ 5) ∧
    (∀ x ∈ [0x4000000000000000, 0xBFF0000000000000, 0, 0x8000000000000000,
      0x3FF0000000000000], x < 2 ^ 64) ∧
    ∃ bufs, mergeLoop 5 1 1 (localSorted 5 [0x4000000000000000, 0xBFF0000000000000, 0,
        0x8000000000000000, 0x3FF0000000000000]) = some bufs ∧
      rankStep 5 (groupSizeAt 1) bufs 4 = some (bufs.getD 4 []) :=
  ⟨by decide, by decide,
   (subtree_merged 5 [0x4000000000000000, 0xBFF0000000000000, 0,
      0x8000000000000000, 0x3FF0000000000000] (by decide) (by decide) 1).imp
     (fun _ h => ⟨h.1, (h.2 4 (by decide) (by decide)).2.2.2 (by decide) (by decide)⟩)⟩

set_option exponentiation.threshold 2100 in
/-- Counterexample to C16 as stated: with two ranks and the input
`[-NaN, 1.0, -NaN, 0.5]`, after the single merge step rank 0 (a multiple of the group
size 2) holds `[-NaN, 1.0, -NaN, 0.5]`, in which `1.0` stands before the smaller `0.5`:
the buffer is not ascending. -/
theorem subtree_merged_counterexample :
    ∃ bufs, mergeLoop 2 (stepsLoop 2 0) 1 (localSorted 2 nanExampleInput) = some bufs ∧
      0 % groupSizeAt (stepsLoop 2 0) = 0 ∧
      bufs.getD 0 [] = [0xFFF8000000000000, 0x3FF0000000000000, 0xFFF8000000000000,
        0x3FE0000000000000] ∧
      dlt 0x3FE0000000000000 0x3FF0000000000000 = true ∧
      ¬ (bufs.getD 0 []).Pairwise (fun u v => dle u v = true) ∧
      ¬ (bufs.getD 0 []).Pairwise (fun u v => dlt v u = false) := by
  rw [stepsLoop_two]
  exact ⟨_, nanExample_after_step, by decide, rfl, by decide, by decide, by decide⟩

/-- C17: a rank that is neither merger nor sender at step `k` was a sender at an
earlier step; its buffer is empty at the start of step `k` and it leaves the step with
an empty buffer. -/
theorem idle_rank_empty (size : Nat) (data : List Nat) (hs : 1 ≤ size)
    (hb : ∀ x ∈ data, x < 2 ^ 64) (k r : Nat) (hr : r < size)
    (h1 : r % (groupSizeAt k * 2) ≠ 0) (h2 : r % (groupSizeAt k * 2) ≠ groupSizeAt k) :
    (∃ j, j < k ∧ r % (groupSizeAt j * 2) = groupSizeAt j ∧
      ∀ buf, sendOf (groupSizeAt j) r buf = some (r - groupSizeAt j, buf)) ∧
    ∃ bufs, mergeLoop size k 1 (localSorted size data) = some bufs ∧
      bufs.getD r [] = [] ∧ rankStep size (groupSizeAt k) bufs r = some [] := by
  obtain ⟨j, hj, hsend⟩ := idle_was_sender k r h1 h2
  refine ⟨⟨j, hj, hsend, fun buf => sendOf_eq_some _ r buf (groupSizeAt_pos j) hsend⟩, ?_⟩
  obtain ⟨bufs, hrun, hinv, -⟩ := tree_state size data hs hb k
  have hempty := (hinv.2 r hr).2 (idle_not_multiple _ r (groupSizeAt_pos k) h1 h2)
  refine ⟨bufs, hrun, hempty, ?_⟩
  rw [idle_rank_step size _ bufs r (groupSizeAt_pos k) h1 h2, hempty]

/-- Witness for C17: with four ranks, rank 1 is idle at step 1 and was a sender at
step 0. -/
theorem idle_rank_empty_witness :
    (1 ≤ 4) ∧ (∀ x ∈ [0x4000000000000000, 0xBFF0000000000000, 0, 0x8000000000000000,
      0x3FF0000000000000], x < 2 ^ 64) ∧ (1 < 4) ∧
    1 % (groupSizeAt 1 * 2) ≠ 0 ∧ 1 % (groupSizeAt 1 * 2) ≠ groupSizeAt 1 ∧
    ∃ bufs, mergeLoop 4 1 1 (localSorted 4 [0x4000000000000000, 0xBFF0000000000000, 0,
        0x8000000000000000, 0x3FF0000000000000]) = some bufs ∧ bufs.getD 1 [] = [] :=
  ⟨by decide, by decide, by decide, by decide, by decide,
   (idle_rank_empty 4 [0x4000000000000000, 0xBFF0000000000000, 0, 0x8000000000000000,
      0x3FF0000000000000] (by decide) (by decide) 1 1 (by decide) (by decide)
      (by decide)).2.imp (fun _ h => ⟨h.1, h.2.1⟩)⟩

end RadixSort
